import Mathlib

/-!
# Verification of the Project-Mermaid ingestion engine

Shallow embedding of the entity-identity-resolution and tabular-normalization
core of the Project-Mermaid repository (`src/backend/etl/*.py`), together with
proofs settling the frozen claims about it.

Strings are modelled as `List Char` (`LStr`); Python's `str` operations used by
the source (`strip`, `lower`, `replace` with single-character or fixed
patterns, `re.sub` character-class deletion, substring test `in`) are given
explicit executable definitions below.  Numeric cell values are modelled
exactly: Python `float(...)` applied to the cleaned strings is modelled by
`pyFloat?`, which implements the float-literal grammar (sign, digit groups
with underscores, at most one decimal point, optional exponent, `inf`/`nan`
forms) over exact rationals; a `ValueError` (caught by the source's
`try/except`) is modelled as `none`.
-/

set_option autoImplicit false

namespace Mermaid

/-- Python strings, modelled as lists of characters. -/
abbrev LStr := List Char

/-- Coerce a Lean string literal to the model. -/
def chars (s : String) : LStr := s.data

/-- The whitespace characters stripped by Python's `str.strip()` and matched by
the regex class `\s` (ASCII whitespace plus the no-break space, the only
non-ASCII whitespace occurring in this data model). -/
def isPySpace (c : Char) : Bool :=
  c = ' ' || c = '\t' || c = '\n' || c = '\x0d' || c = '\x0b' || c = '\x0c' ||
  c = Char.ofNat 160

/-- Python `str.strip()`: drop leading and trailing whitespace. -/
def pyStrip (s : LStr) : LStr :=
  ((s.dropWhile isPySpace).reverse.dropWhile isPySpace).reverse

/-- Python `str.lower()` (ASCII case folding suffices for this data). -/
def toLowerChars (s : LStr) : LStr := s.map Char.toLower

/-- Helper for `collapseWs`: the flag records whether the previous character
was whitespace (in which case further whitespace is absorbed into the space
already emitted). -/
def collapseWsAux : Bool → LStr → LStr
  | _, [] => []
  | prevWs, c :: t =>
    if isPySpace c then
      if prevWs then collapseWsAux true t else ' ' :: collapseWsAux true t
    else c :: collapseWsAux false t

/-- Collapse each run of whitespace to a single space: the action of
`re.sub(r"\s+", " ", ·)`. -/
def collapseWs (s : LStr) : LStr := collapseWsAux false s

/-- `normalize` from the ingestion scripts:
`re.sub(r"\s+", " ", (s or "").strip())`. -/
def pyNormalize (s : LStr) : LStr := collapseWs (pyStrip s)

/-- Python's substring test `needle in hay`. -/
def isSubstrOf (needle : LStr) : LStr → Bool
  | [] => needle.isEmpty
  | c :: t => needle.isPrefixOf (c :: t) || isSubstrOf needle t

/-- Number of decimal points in a string. -/
def countDots (s : LStr) : ℕ := s.count '.'

/-- Split a string at every decimal point (used to model the float-literal
grammar: a mantissa is valid only when this split has at most two parts). -/
def splitDot : LStr → List LStr
  | [] => [[]]
  | c :: t =>
    if c = '.' then [] :: splitDot t
    else
      match splitDot t with
      | [] => [[c]]
      | h :: r => (c :: h) :: r

/-! ## Model of Python `float(...)`

The sources call the builtin `float` on cleaned cell strings inside
`try/except`; a `ValueError` is modelled as `none`.  Values are exact
rationals; the special values produced by `float` on `inf`/`nan` spellings are
distinguished constructors. -/

/-- A Python value as it occurs in the ingestion records: an integer (entity
identifiers), or a float (metric values), including the non-finite floats. -/
inductive PyVal where
  | int (n : ℤ)
  | num (q : ℚ)
  | inf
  | negInf
  | nan
deriving DecidableEq, Repr

/-- A valid Python digit group: digits with optional single underscores
strictly between digits (`digit (('_')? digit)*`). -/
def digitpartValid (l : LStr) : Bool :=
  !l.isEmpty &&
  l.all (fun c => c.isDigit || c = '_') &&
  (match l.head? with | some c => c.isDigit | none => false) &&
  (match l.getLast? with | some c => c.isDigit | none => false) &&
  (l.zip l.tail).all (fun p => !(p.1 = '_' && p.2 = '_'))

/-- Numeric value of a digit string (most significant first). -/
def digitsToNat (l : LStr) : ℕ :=
  l.foldl (fun acc c => 10 * acc + (c.toNat - 48)) 0

/-- Value of a digit group, ignoring underscores. -/
def dpVal (l : LStr) : ℕ := digitsToNat (l.filter (fun c => !(c = '_')))

/-- Number of actual digits in a digit group (underscores dropped). -/
def digCount (l : LStr) : ℕ := (l.filter (fun c => !(c = '_'))).length

/-- Value of the fixed-point part of a float literal (no sign, no exponent):
at most one decimal point, each side a valid digit group or empty, not both
empty. -/
def mantissaVal? (m : LStr) : Option ℚ :=
  match splitDot m with
  | [ip] => if digitpartValid ip then some (dpVal ip : ℚ) else none
  | [ip, fp] =>
    if (ip.isEmpty || digitpartValid ip) && (fp.isEmpty || digitpartValid fp)
        && !(ip.isEmpty && fp.isEmpty) then
      some ((dpVal ip : ℚ) + (dpVal fp : ℚ) / 10 ^ digCount fp)
    else none
  | _ => none

/-- Strip one optional leading sign: returns (isNegative, rest). -/
def stripSign : LStr → Bool × LStr
  | [] => (false, [])
  | c :: r =>
    if c = '+' then (false, r)
    else if c = '-' then (true, r)
    else (false, c :: r)

/-- Split a string at the first exponent marker `e`/`E`, if any. -/
def splitAtE : LStr → LStr × Option LStr
  | [] => ([], none)
  | c :: t =>
    if c = 'e' || c = 'E' then ([], some t)
    else
      let p := splitAtE t
      (c :: p.1, p.2)

/-- Value of an exponent part: optional sign followed by a digit group. -/
def expVal? (l : LStr) : Option ℤ :=
  let p := stripSign l
  if digitpartValid p.2 then
    some (if p.1 then -(dpVal p.2 : ℤ) else (dpVal p.2 : ℤ))
  else none

/-- Model of Python's builtin `float(s)` on a string: `none` models the
`ValueError` raised on a malformed literal. -/
def pyFloat? (s : LStr) : Option PyVal :=
  let sgn := stripSign (pyStrip s)
  let neg := sgn.1
  let r := sgn.2
  let rl := toLowerChars r
  if rl = chars "inf" || rl = chars "infinity" then
    some (if neg then PyVal.negInf else PyVal.inf)
  else if rl = chars "nan" then some PyVal.nan
  else
    let p := splitAtE r
    match mantissaVal? p.1, p.2 with
    | some q, none => some (PyVal.num (if neg then -q else q))
    | some q, some ep =>
      match expVal? ep with
      | some e =>
        let v := q * (10 : ℚ) ^ e
        some (PyVal.num (if neg then -v else v))
      | none => none
    | none, _ => none

/-! ## The Value Cleaner

Two textual variants exist in the repository:
* `clean_num` in `ingest_data.py` (identical in `run_full_ingestion.py`);
* `clean_num` in `ingest_rescue.py` (identical in `ingest_2024.py` and
  `ingest_handbooks_5y_and_ar.py`).
-/

/-- Python `s.replace(pat, "")` for a fixed non-empty pattern: delete every
non-overlapping occurrence, scanning left to right.  Fuel-driven recursion;
the fuel `l.length` is enough because every step consumes at least one
character for the non-empty patterns used by the source. -/
def deleteAllF (pat : LStr) : ℕ → LStr → LStr
  | 0, l => l
  | _ + 1, [] => []
  | fuel + 1, c :: t =>
    if pat.isPrefixOf (c :: t) then deleteAllF pat fuel ((c :: t).drop pat.length)
    else c :: deleteAllF pat fuel t

/-- Python `s.replace(pat, "")`. -/
def deleteAll (pat : LStr) (l : LStr) : LStr := deleteAllF pat l.length l

/-- The characters kept by `re.sub(r"[^\d\.\-]", "", s)`. -/
def keepNumChar (c : Char) : Bool := c.isDigit || c = '.' || c = '-'

namespace IngestData

/-- The cleaned string built by `clean_num` in `ingest_data.py`:
`str(v).replace(",", "").replace("%", "").strip().lower()`. -/
def cleaned (v : LStr) : LStr :=
  toLowerChars (pyStrip ((v.filter (fun c => !(c = ','))).filter (fun c => !(c = '%'))))

/-- `clean_num` from `ingest_data.py` / `run_full_ingestion.py`: `None` on the
null tokens, otherwise `float(s)`, with any exception caught and turned into
`None`. -/
def clean_num (v : LStr) : Option PyVal :=
  let s := cleaned v
  if s = chars "" ∨ s = chars "-" ∨ s = chars "na" ∨ s = chars "n/a" ∨
      s = chars "none" ∨ s = chars "nan" then none
  else pyFloat? s

end IngestData

namespace IngestRescue

/-- The residual string built by `clean_num` in `ingest_rescue.py`:
non-breaking spaces to spaces, then `","`, `"%"`, `"Rs."`, `"Rs"` deleted,
then `re.sub(r"[^\d\.\-]", "", s).strip()`. -/
def resid (v : LStr) : LStr :=
  let s1 := v.map (fun c => if c = Char.ofNat 160 then ' ' else c)
  let s2 := s1.filter (fun c => !(c = ','))
  let s3 := s2.filter (fun c => !(c = '%'))
  let s4 := deleteAll (chars "Rs.") s3
  let s5 := deleteAll (chars "Rs") s4
  pyStrip (s5.filter keepNumChar)

/-- `clean_num` from `ingest_rescue.py` (textually identical in
`ingest_2024.py` and `ingest_handbooks_5y_and_ar.py`): `None` on the null
tokens, otherwise `float(s)`, with any exception caught and turned into
`None`. -/
def clean_num (v : LStr) : Option PyVal :=
  let s := resid v
  if s = chars "" ∨ s = chars "-" ∨ s = chars "." ∨ s = chars "na" ∨
      s = chars "n/a" then none
  else pyFloat? s

end IngestRescue

namespace IngestHandbooks

/-- `clean_num` from `ingest_handbooks_5y_and_ar.py`, textually identical to
the one in `ingest_rescue.py`. -/
def clean_num (v : LStr) : Option PyVal := IngestRescue.clean_num v

end IngestHandbooks

/-! ## Identity Resolver

`map_id` (identical text in `ingest_data.py`, `ingest_rescue.py`,
`ingest_2024.py`, `ingest_handbooks_5y_and_ar.py`; named `map_insurer_id` in
`run_full_ingestion.py`).  The similarity scorer (`rapidfuzz`'s
`fuzz.WRatio` / `fuzz.partial_ratio`, an external library) is a parameter: the
repository's logic — normalization, exact lookup, `process.extractOne`
maximization and the acceptance thresholds — is embedded, and every theorem
below holds for an arbitrary scorer. -/

/-- A similarity scorer, such as `fuzz.WRatio`, on the 0–100 scale. -/
abbrev Scorer := LStr → LStr → ℚ

/-- A constant scorer, used to instantiate witnesses. -/
def constScore (q : ℚ) : Scorer := fun _ _ => q

/-- `rapidfuzz.process.extractOne(q, choices, scorer)`: the choice with the
highest score, the earliest one on ties; `None` for an empty choice list. -/
def extractOne (scorer : Scorer) (q : LStr) : List LStr → Option (LStr × ℚ)
  | [] => none
  | c :: cs =>
    match extractOne scorer q cs with
    | none => some (c, scorer q c)
    | some p => if p.2 > scorer q c then some p else some (c, scorer q c)

/-- Python `ids[n]` / `ids.get(n)` on the insurer-name dictionary, modelled as
first-match lookup in an association list. -/
def lookupName (n : LStr) (ids : List (LStr × ℤ)) : Option ℤ :=
  (ids.find? (fun p => decide (p.1 = n))).map Prod.snd

/-- `map_id(raw, names, ids)`: normalized exact lookup first, else an
approximate match accepted only at score ≥ 85. -/
def map_id (scorer : Scorer) (raw : LStr) (names : List LStr)
    (ids : List (LStr × ℤ)) : Option ℤ :=
  let n := pyNormalize raw
  match lookupName n ids with
  | some i => some i
  | none =>
    match extractOne scorer n names with
    | some m => if 85 ≤ m.2 then lookupName m.1 ids else none
    | none => none

/-! ## Header Resolver

`find_col` (identical text in `ingest_rescue.py`, `ingest_2024.py`,
`ingest_handbooks_5y_and_ar.py`). -/

/-- `lc = [str(c).lower().strip() for c in raw_cols]`. -/
def lcCols (raw_cols : List LStr) : List LStr :=
  raw_cols.map (fun c => pyStrip (toLowerChars c))

/-- The first loop of `find_col`: for each candidate in order, return the
index of the first column whose lowered label equals or contains the lowered
candidate. -/
def phase1 (lc : List LStr) : List LStr → Option ℕ
  | [] => none
  | cand :: rest =>
    let cl := toLowerChars cand
    match lc.findIdx? (fun c => decide (cl = c) || isSubstrOf cl c) with
    | some i => some i
    | none => phase1 lc rest

/-- The second loop of `find_col`: `best = (None, -1, None)`, replaced whenever
a candidate's `extractOne` score strictly exceeds the best so far; the stored
index is `lc.index(match)` (first position of the matched label). -/
def bestLoop (scorer : Scorer) (lc : List LStr) :
    List LStr → Option (LStr × ℕ) × ℚ → Option (LStr × ℕ) × ℚ
  | [], acc => acc
  | cand :: rest, acc =>
    let acc' :=
      match extractOne scorer (toLowerChars cand) lc with
      | some m =>
        if m.2 > acc.2 then
          (some (m.1, ((lc.findIdx? (fun c => decide (c = m.1))).getD 0)), m.2)
        else acc
      | none => acc
    bestLoop scorer lc rest acc'

/-- `find_col(raw_cols, candidates)`: equality-or-containment pass first, then
the approximate pass accepted only at score ≥ 80. -/
def find_col (scorer : Scorer) (raw_cols cands : List LStr) : Option LStr :=
  let lc := lcCols raw_cols
  match phase1 lc cands with
  | some i => some (raw_cols.getD i [])
  | none =>
    let b := bestLoop scorer lc cands (none, -1)
    match b.1 with
    | some p => if 80 ≤ b.2 then some (raw_cols.getD p.2 []) else none
    | none => none

/-! ## Merge & Upsert Engine

`upsert(year, recs)` from `ingest_data.py` (textually identical modulo the
extra `source` column in `ingest_rescue.py`, `ingest_2024.py` and
`ingest_handbooks_5y_and_ar.py`).  Each record is a Python dict, modelled as
an association list with unique keys; the mutation of the caller's dicts by
`rec.pop("insurer_id", None)` is made explicit by returning the record list
in its post-call state. -/

/-- A record dict (`{"insurer_id": iid, metric: value, ...}`). -/
abbrev PyRec := List (LStr × PyVal)

/-- Python dict lookup `r[k]` / `r.get(k)`. -/
def lookupRec (r : PyRec) (k : LStr) : Option PyVal :=
  (r.find? (fun p => decide (p.1 = k))).map Prod.snd

/-- Python `r.pop(k, None)`: the popped value together with the dict with the
key removed. -/
def popKey (r : PyRec) (k : LStr) : Option PyVal × PyRec :=
  (lookupRec r k, r.filter (fun p => !decide (p.1 = k)))

/-- Python truthiness of the values that occur in the records (`if not iid`). -/
def truthy : PyVal → Bool
  | .int n => decide (n ≠ 0)
  | .num q => decide (q ≠ 0)
  | .inf => true
  | .negInf => true
  | .nan => true

/-- Truthiness of an `Option ℤ` identifier as returned by `map_id` (`None` and
`0` are both falsy). -/
def truthyId : Option ℤ → Bool
  | none => false
  | some n => decide (n ≠ 0)

/-- A stored row of the `indicators` table. -/
structure DBRow where
  insurer_id : PyVal
  year : ℤ
  cols : PyRec
deriving DecidableEq, Repr

/-- Modelled from the spec: the repository's `schema.sql` (which declares the
`indicators` table and its uniqueness constraint) is not under `src/`; per the
spec's persisted-key contract, rows conflict exactly when they agree on the
key columns present in this variant of the write, `(insurer_id, year)`.
`INSERT OR REPLACE` is SQLite's documented behaviour: every conflicting row
is deleted and a fresh row is inserted holding only the columns listed in the
statement — unlisted columns take their default (`NULL`, i.e. absent). -/
def insertOrReplace (db : List DBRow) (iid : PyVal) (year : ℤ) (cs : PyRec) :
    List DBRow :=
  db.filter (fun r => !decide (r.insurer_id = iid ∧ r.year = year)) ++ [⟨iid, year, cs⟩]

/-- The loop of `upsert`: every record is popped; falsy identifiers are
skipped; truthy ones are written with `INSERT OR REPLACE`. -/
def upsertGo (year : ℤ) (db : List DBRow) :
    List PyRec → List PyRec → ℕ → List DBRow × List PyRec × ℕ
  | [], acc, n => (db, acc, n)
  | r :: rest, acc, n =>
    let p := popKey r (chars "insurer_id")
    match p.1 with
    | some v =>
      if truthy v then
        upsertGo year (insertOrReplace db v year p.2) rest (acc ++ [p.2]) (n + 1)
      else upsertGo year db rest (acc ++ [p.2]) n
    | none => upsertGo year db rest (acc ++ [p.2]) n

/-- `upsert(year, recs)`: returns the database after the call, the caller's
record list after the call (the dicts are mutated by `pop`), and the row
count returned by the function. -/
def upsert (db : List DBRow) (year : ℤ) (recs : List PyRec) :
    List DBRow × List PyRec × ℕ :=
  if recs.isEmpty then (db, recs, 0) else upsertGo year db recs [] 0

/-- The metric value stored for a key: look up the row with this
`(insurer_id, year)` and read the metric column (absent = SQL `NULL`). -/
def storedMetric (db : List DBRow) (iid : PyVal) (year : ℤ) (m : LStr) :
    Option PyVal :=
  (db.find? (fun r => decide (r.insurer_id = iid ∧ r.year = year))).bind
    (fun r => lookupRec r.cols m)

/-! ## Table Parser

`parse_table(df, labels, names, ids, unmatched)` from `ingest_data.py`. -/

/-- A tabular sheet: named columns and rows of cell strings (cells aligned
with the column list by position). -/
structure DF where
  cols : List LStr
  rows : List (List LStr)

/-- `any(h in c for h in hints)`. -/
def hintsMatch (hints : List LStr) (c : LStr) : Bool :=
  hints.any (fun h => isSubstrOf h c)

/-- The entity-name column test of `parse_table`:
`any(k in c for k in ("insurer", "company", "name"))`. -/
def nameColMatch (c : LStr) : Bool :=
  hintsMatch [chars "insurer", chars "company", chars "name"] c

/-- Python `set.add`. -/
def sInsert (s : List LStr) (x : LStr) : List LStr :=
  if x ∈ s then s else s ++ [x]

/-- Python dict assignment `d[k] = v` (update in place, else append). -/
def setKey (d : PyRec) (k : LStr) (v : PyVal) : PyRec :=
  if (d.find? (fun p => decide (p.1 = k))).isSome then
    d.map (fun p => if p.1 = k then (k, v) else p)
  else d ++ [(k, v)]

/-- Python `d.update(src)`. -/
def dictUpdate (d : PyRec) (src : PyRec) : PyRec :=
  src.foldl (fun acc p => setKey acc p.1 p.2) d

/-- The body of the row loop of `parse_table` (lines 93–103 of
`ingest_data.py`): skip blank and aggregate rows, resolve the name, add
unresolved names to the unmatched set, clean the metric cell and emit an
observation record when a value is present. -/
def rowStep (scorer : Scorer) (names : List LStr) (ids : List (LStr × ℤ))
    (nameIdx valIdx : ℕ) (label : LStr) (st : List PyRec × List LStr)
    (row : List LStr) : List PyRec × List LStr :=
  let raw := pyStrip (row.getD nameIdx [])
  if raw = [] ∨ toLowerChars raw = chars "total" ∨
      toLowerChars raw = chars "grand total" then st
  else
    let iid := map_id scorer raw names ids
    if truthyId iid = false then (st.1, sInsert st.2 raw)
    else
      match IngestData.clean_num (row.getD valIdx []) with
      | some v =>
        (st.1 ++ [[(chars "insurer_id", PyVal.int (iid.getD 0)), (label, v)]], st.2)
      | none => st

/-- The grouping pass at the end of `parse_table`:
`merged.setdefault(iid, {"insurer_id": iid}).update(...)`. -/
def mergeGo : List PyRec → List (PyVal × PyRec) → List (PyVal × PyRec)
  | [], acc => acc
  | r :: rest, acc =>
    let iid := (lookupRec r (chars "insurer_id")).getD (PyVal.int 0)
    let cur :=
      match acc.find? (fun p => decide (p.1 = iid)) with
      | some p => p.2
      | none => [(chars "insurer_id", iid)]
    let upd := dictUpdate cur (r.filter (fun p => !decide (p.1 = chars "insurer_id")))
    let acc' :=
      if (acc.find? (fun p => decide (p.1 = iid))).isSome then
        acc.map (fun p => if p.1 = iid then (iid, upd) else p)
      else acc ++ [(iid, upd)]
    mergeGo rest acc'

/-- Group the emitted observation records by entity identifier. -/
def mergeRecs (out : List PyRec) : List PyRec := (mergeGo out []).map Prod.snd

/-- `parse_table(df, labels, names, ids, unmatched)`: returns the observation
records and the unmatched set after the call (the Python function mutates the
set passed in). -/
def parse_table (scorer : Scorer) (df : DF) (labels : List (LStr × List LStr))
    (names : List LStr) (ids : List (LStr × ℤ)) (unmatched : List LStr) :
    List PyRec × List LStr :=
  if df.rows.isEmpty ∨ df.cols.isEmpty then ([], unmatched)
  else
    let cols := df.cols.map (fun c => toLowerChars (pyStrip c))
    match cols.findIdx? nameColMatch with
    | none => ([], unmatched)
    | some nameIdx =>
      let res := labels.foldl
        (fun st lab =>
          match cols.findIdx? (hintsMatch lab.2) with
          | none => st
          | some valIdx =>
            df.rows.foldl (rowStep scorer names ids nameIdx valIdx lab.1) st)
        ([], unmatched)
      (mergeRecs res.1, res.2)

/-! ## Digit-string schemas

Used to state the thousands-separator claim for every well-formed numeric
string `"<a>,<b>.<c>%"` built from arbitrary digit lists. -/

/-- The digit characters of a list of digits (each `< 10`). -/
def encodeDigits (ds : List ℕ) : LStr := ds.map Nat.digitChar

/-- Value of a big-endian digit list. -/
def natOfDigits (ds : List ℕ) : ℕ := ds.foldl (fun acc d => 10 * acc + d) 0

/-- The integer part of a thousands-separated numeral: a leading digit group
followed by comma-prefixed further groups of arbitrary lengths, covering both
Western grouping ("1,234,567") and the Indian grouping ("12,34,567") of the
source data. -/
def commaJoin (g : List ℕ) (gs : List (List ℕ)) : LStr :=
  encodeDigits g ++ (gs.map (fun z => ',' :: encodeDigits z)).flatten

/-! # Lemmas

Evaluation helpers first: code points and case folding of the digit
characters, so that `simp` / `norm_num` can evaluate the cleaners on concrete
strings. -/

@[simp] theorem toNat_digit0 : '0'.toNat = 48 := rfl
@[simp] theorem toNat_digit1 : '1'.toNat = 49 := rfl
@[simp] theorem toNat_digit2 : '2'.toNat = 50 := rfl
@[simp] theorem toNat_digit3 : '3'.toNat = 51 := rfl
@[simp] theorem toNat_digit4 : '4'.toNat = 52 := rfl
@[simp] theorem toNat_digit5 : '5'.toNat = 53 := rfl
@[simp] theorem toNat_digit6 : '6'.toNat = 54 := rfl
@[simp] theorem toNat_digit7 : '7'.toNat = 55 := rfl
@[simp] theorem toNat_digit8 : '8'.toNat = 56 := rfl
@[simp] theorem toNat_digit9 : '9'.toNat = 57 := rfl

@[simp] theorem toLower_digit0 : '0'.toLower = '0' := rfl
@[simp] theorem toLower_digit1 : '1'.toLower = '1' := rfl
@[simp] theorem toLower_digit2 : '2'.toLower = '2' := rfl
@[simp] theorem toLower_digit3 : '3'.toLower = '3' := rfl
@[simp] theorem toLower_digit4 : '4'.toLower = '4' := rfl
@[simp] theorem toLower_digit5 : '5'.toLower = '5' := rfl
@[simp] theorem toLower_digit6 : '6'.toLower = '6' := rfl
@[simp] theorem toLower_digit7 : '7'.toLower = '7' := rfl
@[simp] theorem toLower_digit8 : '8'.toLower = '8' := rfl
@[simp] theorem toLower_digit9 : '9'.toLower = '9' := rfl
@[simp] theorem toLower_dot : '.'.toLower = '.' := rfl

theorem splitDot_ne_nil (l : LStr) : splitDot l ≠ [] := by
  induction l with
  | nil => simp [splitDot]
  | cons c t ih =>
    by_cases hc : c = '.'
    · simp [splitDot, hc]
    · simp only [splitDot, if_neg hc]
      cases h : splitDot t with
      | nil => simp
      | cons a r => simp

theorem length_splitDot (l : LStr) : (splitDot l).length = countDots l + 1 := by
  induction l with
  | nil => simp [splitDot, countDots]
  | cons c t ih =>
    by_cases hc : c = '.'
    · subst hc
      have h1 : splitDot ('.' :: t) = [] :: splitDot t := by simp [splitDot]
      have h2 : countDots ('.' :: t) = countDots t + 1 := by
        simp [countDots, List.count_cons]
      rw [h1, h2, List.length_cons]
      omega
    · simp only [splitDot, if_neg hc]
      have hcount : countDots (c :: t) = countDots t := by
        simp [countDots, List.count_cons, hc]
      cases h : splitDot t with
      | nil => exact absurd h (splitDot_ne_nil t)
      | cons a r =>
        rw [h] at ih
        simp only [List.length_cons] at ih ⊢
        omega

/-! ## Lemmas about `popKey` and `upsert` -/

theorem lookupRec_popKey (r : PyRec) (k : LStr) : lookupRec (popKey r k).2 k = none := by
  have h : List.find? (fun p => decide (p.1 = k))
      (List.filter (fun p => !decide (p.1 = k)) r) = none := by
    rw [List.find?_eq_none]
    intro p hp
    have h2 := (List.mem_filter.mp hp).2
    simpa using h2
  simp [popKey, lookupRec, h]

theorem popKey_of_no_key (r : PyRec) (k : LStr) (h : lookupRec r k = none) :
    popKey r k = (none, r) := by
  have hfind : List.find? (fun p => decide (p.1 = k)) r = none := by
    simp only [lookupRec] at h
    cases hf : List.find? (fun p => decide (p.1 = k)) r with
    | none => rfl
    | some p => rw [hf] at h; simp at h
  have hfil : List.filter (fun p => !decide (p.1 = k)) r = r := by
    apply List.filter_eq_self.mpr
    intro p hp
    rw [List.find?_eq_none] at hfind
    simpa using hfind p hp
  simp [popKey, lookupRec, hfind, hfil]

theorem upsertGo_acc (year : ℤ) (recs : List PyRec) :
    ∀ (db : List DBRow) (acc : List PyRec) (n : ℕ),
      (upsertGo year db recs acc n).2.1
        = acc ++ recs.map (fun r => (popKey r (chars "insurer_id")).2) := by
  induction recs with
  | nil => intro db acc n; simp [upsertGo]
  | cons r rest ih =>
    intro db acc n
    cases h : (popKey r (chars "insurer_id")).1 with
    | none => simp [upsertGo, h, ih]
    | some v =>
      by_cases ht : truthy v = true
      · simp [upsertGo, h, ht, ih]
      · simp [upsertGo, h, ht, ih]

theorem upsertGo_skips_popped (year : ℤ) (db : List DBRow) :
    ∀ (recs : List PyRec),
      (∀ r ∈ recs, lookupRec r (chars "insurer_id") = none) →
      ∀ (acc : List PyRec) (n : ℕ), upsertGo year db recs acc n = (db, acc ++ recs, n) := by
  intro recs
  induction recs with
  | nil => intro h acc n; simp [upsertGo]
  | cons r rest ih =>
    intro h acc n
    have hr := h r (by simp)
    have hpop := popKey_of_no_key r (chars "insurer_id") hr
    simp only [upsertGo, hpop]
    rw [ih (fun x hx => h x (by simp [hx])) (acc ++ [r]) n]
    simp

/-! ## Lemmas about `extractOne` -/

theorem extractOne_eq_none_iff (scorer : Scorer) (q : LStr) (l : List LStr) :
    extractOne scorer q l = none ↔ l = [] := by
  cases l with
  | nil => simp [extractOne]
  | cons c cs =>
    simp only [extractOne]
    cases h : extractOne scorer q cs with
    | none => simp
    | some p =>
      simp only
      split <;> simp

theorem extractOne_spec (scorer : Scorer) (q : LStr) :
    ∀ (l : List LStr) (nm : LStr) (sc : ℚ), extractOne scorer q l = some (nm, sc) →
      nm ∈ l ∧ sc = scorer q nm ∧ ∀ x ∈ l, scorer q x ≤ sc := by
  intro l
  induction l with
  | nil => intro nm sc h; simp [extractOne] at h
  | cons c cs ih =>
    intro nm sc h
    simp only [extractOne] at h
    cases h2 : extractOne scorer q cs with
    | none =>
      rw [h2] at h
      simp only [Option.some_inj, Prod.mk.injEq] at h
      obtain ⟨rfl, rfl⟩ := h
      have hcs : cs = [] := (extractOne_eq_none_iff scorer q cs).mp h2
      subst hcs
      refine ⟨by simp, rfl, ?_⟩
      intro x hx
      simp only [List.mem_singleton] at hx
      subst hx
      exact le_refl _
    | some p =>
      rw [h2] at h
      dsimp only at h
      by_cases hgt : p.2 > scorer q c
      · rw [if_pos hgt] at h
        simp only [Option.some_inj] at h
        obtain ⟨hmem, hsc, hmax⟩ := ih p.1 p.2 (by rw [h2])
        rw [h] at hmem hsc hmax hgt
        refine ⟨List.mem_cons_of_mem c hmem, hsc, ?_⟩
        intro x hx
        rcases List.mem_cons.mp hx with hx | hx
        · subst hx; exact le_of_lt hgt
        · exact hmax x hx
      · rw [if_neg hgt] at h
        simp only [Option.some_inj, Prod.mk.injEq] at h
        obtain ⟨rfl, rfl⟩ := h
        obtain ⟨hmem, hsc, hmax⟩ := ih p.1 p.2 (by rw [h2])
        refine ⟨by simp, rfl, ?_⟩
        intro x hx
        rcases List.mem_cons.mp hx with hx | hx
        · subst hx; exact le_refl _
        · exact le_trans (hmax x hx) (not_lt.mp hgt)

/-! ## Lemmas about `find_col` -/

theorem phase1_eq_none_iff (lc : List LStr) (cands : List LStr) :
    phase1 lc cands = none ↔
      ∀ cand ∈ cands, ∀ c ∈ lc,
        (decide (toLowerChars cand = c) || isSubstrOf (toLowerChars cand) c) = false := by
  induction cands with
  | nil => simp [phase1]
  | cons cand rest ih =>
    simp only [phase1]
    cases hf : lc.findIdx?
        (fun c => decide (toLowerChars cand = c) || isSubstrOf (toLowerChars cand) c) with
    | some i =>
      constructor
      · intro h; simp at h
      · intro hall
        exfalso
        have hnone : lc.findIdx?
            (fun c => decide (toLowerChars cand = c) || isSubstrOf (toLowerChars cand) c)
            = none :=
          List.findIdx?_eq_none_iff.mpr (fun x hx => hall cand (by simp) x hx)
        rw [hf] at hnone
        simp at hnone
    | none =>
      rw [ih]
      have hhead := List.findIdx?_eq_none_iff.mp hf
      constructor
      · intro hrest cand2 hc2 c hc
        rcases List.mem_cons.mp hc2 with hc2 | hc2
        · subst hc2; exact hhead c hc
        · exact hrest cand2 hc2 c hc
      · intro hall cand2 hc2 c hc
        exact hall cand2 (List.mem_cons_of_mem _ hc2) c hc

theorem phase1_some_spec (lc : List LStr) :
    ∀ (cands : List LStr) (i : ℕ), phase1 lc cands = some i →
      i < lc.length ∧ ∃ cand ∈ cands,
        (decide (toLowerChars cand = lc.getD i [])
          || isSubstrOf (toLowerChars cand) (lc.getD i [])) = true := by
  intro cands
  induction cands with
  | nil => intro i h; simp [phase1] at h
  | cons cand rest ih =>
    intro i h
    simp only [phase1] at h
    cases hf : lc.findIdx?
        (fun c => decide (toLowerChars cand = c) || isSubstrOf (toLowerChars cand) c) with
    | some j =>
      rw [hf] at h
      have hji : j = i := by simpa using h
      subst hji
      obtain ⟨hlt, hp, hmin⟩ := List.findIdx?_eq_some_iff_getElem.mp hf
      refine ⟨hlt, cand, by simp, ?_⟩
      rw [List.getD_eq_getElem lc [] hlt]
      exact hp
    | none =>
      rw [hf] at h
      obtain ⟨hlt, cand2, hc2, hp⟩ := ih i h
      exact ⟨hlt, cand2, List.mem_cons_of_mem _ hc2, hp⟩

theorem bestLoop_spec (scorer : Scorer) (lc : List LStr) :
    ∀ (cands : List LStr) (acc : Option (LStr × ℕ) × ℚ),
      (∀ cand ∈ cands, ∀ nm sc,
        extractOne scorer (toLowerChars cand) lc = some (nm, sc) →
          sc ≤ (bestLoop scorer lc cands acc).2)
      ∧ acc.2 ≤ (bestLoop scorer lc cands acc).2
      ∧ (bestLoop scorer lc cands acc = acc ∨
          ∃ cand ∈ cands, ∃ nm, extractOne scorer (toLowerChars cand) lc
            = some (nm, (bestLoop scorer lc cands acc).2)) := by
  intro cands
  induction cands with
  | nil =>
    intro acc
    refine ⟨?_, le_refl _, Or.inl rfl⟩
    intro cand hc
    simp at hc
  | cons cand rest ih =>
    intro acc
    cases hone : extractOne scorer (toLowerChars cand) lc with
    | none =>
      have hstep : bestLoop scorer lc (cand :: rest) acc = bestLoop scorer lc rest acc := by
        simp [bestLoop, hone]
      obtain ⟨ihA, ihB, ihC⟩ := ih acc
      rw [hstep]
      refine ⟨?_, ihB, ?_⟩
      · intro cand2 hc2 nm sc hsc
        rcases List.mem_cons.mp hc2 with hc2 | hc2
        · subst hc2; rw [hone] at hsc; simp at hsc
        · exact ihA cand2 hc2 nm sc hsc
      · rcases ihC with hC | ⟨cand2, hc2, nm, hnm⟩
        · exact Or.inl hC
        · exact Or.inr ⟨cand2, List.mem_cons_of_mem _ hc2, nm, hnm⟩
    | some m =>
      by_cases hgt : m.2 > acc.2
      · have hstep : bestLoop scorer lc (cand :: rest) acc
            = bestLoop scorer lc rest
                (some (m.1, ((lc.findIdx? (fun c => decide (c = m.1))).getD 0)), m.2) := by
          simp [bestLoop, hone, hgt]
        set acc' : Option (LStr × ℕ) × ℚ :=
          (some (m.1, ((lc.findIdx? (fun c => decide (c = m.1))).getD 0)), m.2)
        obtain ⟨ihA, ihB, ihC⟩ := ih acc'
        rw [hstep]
        have hacc'2 : acc'.2 = m.2 := rfl
        refine ⟨?_, ?_, ?_⟩
        · intro cand2 hc2 nm sc hsc
          rcases List.mem_cons.mp hc2 with hc2 | hc2
          · subst hc2
            rw [hone] at hsc
            have hms : m = (nm, sc) := by simpa using hsc
            calc sc = acc'.2 := by rw [hacc'2, hms]
            _ ≤ _ := ihB
          · exact ihA cand2 hc2 nm sc hsc
        · calc acc.2 ≤ m.2 := le_of_lt hgt
          _ = acc'.2 := hacc'2.symm
          _ ≤ _ := ihB
        · rcases ihC with hC | ⟨cand2, hc2, nm, hnm⟩
          · refine Or.inr ⟨cand, by simp, m.1, ?_⟩
            rw [hC, hacc'2, hone]
          · exact Or.inr ⟨cand2, List.mem_cons_of_mem _ hc2, nm, hnm⟩
      · have hstep : bestLoop scorer lc (cand :: rest) acc = bestLoop scorer lc rest acc := by
          simp [bestLoop, hone, hgt]
        obtain ⟨ihA, ihB, ihC⟩ := ih acc
        rw [hstep]
        refine ⟨?_, ihB, ?_⟩
        · intro cand2 hc2 nm sc hsc
          rcases List.mem_cons.mp hc2 with hc2 | hc2
          · subst hc2
            rw [hone] at hsc
            have hms : m = (nm, sc) := by simpa using hsc
            have hm2 : m.2 = sc := by rw [hms]
            have hle : sc ≤ acc.2 := by
              rw [← hm2]
              exact not_lt.mp hgt
            exact le_trans hle ihB
          · exact ihA cand2 hc2 nm sc hsc
        · rcases ihC with hC | ⟨cand2, hc2, nm, hnm⟩
          · exact Or.inl hC
          · exact Or.inr ⟨cand2, List.mem_cons_of_mem _ hc2, nm, hnm⟩

/-! ## Multiple decimal points make `pyFloat?` fail -/

theorem countDots_dropWhile_pySpace (l : LStr) :
    countDots (l.dropWhile isPySpace) = countDots l := by
  induction l with
  | nil => simp
  | cons c t ih =>
    by_cases h : isPySpace c = true
    · have hc : (c = '.') = False := by
        simp only [eq_iff_iff, iff_false]
        intro he
        subst he
        simp [isPySpace] at h
      rw [List.dropWhile_cons]
      simp only [h, if_true, ih]
      simp [countDots, List.count_cons, hc]
    · rw [List.dropWhile_cons]
      simp [h]

theorem countDots_pyStrip (l : LStr) : countDots (pyStrip l) = countDots l := by
  simp only [pyStrip, countDots] at *
  rw [List.count_reverse]
  have h1 := countDots_dropWhile_pySpace ((l.dropWhile isPySpace).reverse)
  simp only [countDots] at h1
  rw [h1, List.count_reverse]
  have h2 := countDots_dropWhile_pySpace l
  simp only [countDots] at h2
  exact h2

theorem countDots_le_toLowerChars (l : LStr) :
    countDots l ≤ countDots (toLowerChars l) := by
  induction l with
  | nil => simp [toLowerChars]
  | cons c t ih =>
    simp only [toLowerChars, List.map_cons, countDots, List.count_cons, beq_iff_eq] at *
    by_cases hc : c = '.'
    · subst hc
      simp only [toLower_dot, if_pos rfl]
      omega
    · simp only [if_neg hc]
      omega

theorem countDots_stripSign (l : LStr) : countDots (stripSign l).2 = countDots l := by
  cases l with
  | nil => simp [stripSign]
  | cons c r =>
    by_cases h1 : c = '+'
    · subst h1
      simp [stripSign, countDots, List.count_cons]
    · by_cases h2 : c = '-'
      · subst h2
        simp [stripSign, countDots, List.count_cons]
      · simp [stripSign, h1, h2]

theorem countDots_splitAtE (r : LStr) :
    countDots (splitAtE r).1
      + (match (splitAtE r).2 with | some ep => countDots ep | none => 0)
      = countDots r := by
  induction r with
  | nil => simp [splitAtE, countDots]
  | cons c t ih =>
    by_cases h : (c = 'e' || c = 'E') = true
    · have hc : (c = '.') = False := by
        simp only [eq_iff_iff, iff_false]
        intro he
        subst he
        simp at h
      simp only [splitAtE, h, if_true]
      simp [countDots, List.count_cons, hc]
    · have h2 : (c = 'e' || c = 'E') = false := by
        rw [Bool.eq_false_iff]
        exact h
      simp only [splitAtE, h2, Bool.false_eq_true, if_false]
      simp only [countDots, List.count_cons] at ih ⊢
      omega

theorem digitpartValid_no_dot (l : LStr) (h : digitpartValid l = true) :
    countDots l = 0 := by
  simp only [digitpartValid, Bool.and_eq_true] at h
  obtain ⟨⟨⟨⟨_, hall⟩, _⟩, _⟩, _⟩ := h
  rw [countDots, List.count_eq_zero]
  intro hmem
  rw [List.all_eq_true] at hall
  have := hall '.' hmem
  simp at this

theorem mantissaVal?_none_of_dots (m : LStr) (h : 2 ≤ countDots m) :
    mantissaVal? m = none := by
  have hlen : 3 ≤ (splitDot m).length := by
    rw [length_splitDot]
    omega
  rw [mantissaVal?]
  cases hs : splitDot m with
  | nil => exact absurd hs (splitDot_ne_nil m)
  | cons a l1 =>
    cases l1 with
    | nil => rw [hs] at hlen; simp at hlen
    | cons b l2 =>
      cases l2 with
      | nil => rw [hs] at hlen; simp at hlen
      | cons c l3 => rfl

theorem expVal?_none_of_dots (ep : LStr) (h : 1 ≤ countDots ep) :
    expVal? ep = none := by
  rw [expVal?]
  by_cases hv : digitpartValid (stripSign ep).2 = true
  · have h0 := digitpartValid_no_dot _ hv
    rw [countDots_stripSign] at h0
    omega
  · simp [hv]

theorem pyFloat?_none_of_dots (s : LStr) (h : 2 ≤ countDots s) :
    pyFloat? s = none := by
  have ht : 2 ≤ countDots (pyStrip s) := by rw [countDots_pyStrip]; exact h
  have hr : 2 ≤ countDots (stripSign (pyStrip s)).2 := by
    rw [countDots_stripSign]; exact ht
  rw [pyFloat?]
  have hinf : (toLowerChars (stripSign (pyStrip s)).2 = chars "inf"
      || toLowerChars (stripSign (pyStrip s)).2 = chars "infinity") = false := by
    have hge := countDots_le_toLowerChars (stripSign (pyStrip s)).2
    rw [Bool.or_eq_false_iff]
    constructor
    · rw [decide_eq_false_iff_not]
      intro he
      rw [he] at hge
      have : countDots (chars "inf") = 0 := by decide
      omega
    · rw [decide_eq_false_iff_not]
      intro he
      rw [he] at hge
      have : countDots (chars "infinity") = 0 := by decide
      omega
  have hnan : decide (toLowerChars (stripSign (pyStrip s)).2 = chars "nan") = false := by
    have hge := countDots_le_toLowerChars (stripSign (pyStrip s)).2
    rw [decide_eq_false_iff_not]
    intro he
    rw [he] at hge
    have : countDots (chars "nan") = 0 := by decide
    omega
  have hnan2 : ¬toLowerChars (stripSign (pyStrip s)).2 = chars "nan" := by
    simpa using hnan
  simp only [hinf, hnan, Bool.false_eq_true, if_false]
  have hsplit := countDots_splitAtE (stripSign (pyStrip s)).2
  cases he : (splitAtE (stripSign (pyStrip s)).2).2 with
  | none =>
    rw [he] at hsplit
    simp only at hsplit
    have hm : mantissaVal? (splitAtE (stripSign (pyStrip s)).2).1 = none :=
      mantissaVal?_none_of_dots _ (by omega)
    simp [hm, he]
    all_goals exact hnan2
  | some ep =>
    rw [he] at hsplit
    simp only at hsplit
    by_cases hm2 : 2 ≤ countDots (splitAtE (stripSign (pyStrip s)).2).1
    · have hm : mantissaVal? (splitAtE (stripSign (pyStrip s)).2).1 = none :=
        mantissaVal?_none_of_dots _ hm2
      simp [hm, he]
      all_goals exact hnan2
    · have hep : 1 ≤ countDots ep := by omega
      have hexp : expVal? ep = none := expVal?_none_of_dots ep hep
      cases hm : mantissaVal? (splitAtE (stripSign (pyStrip s)).2).1 with
      | none =>
        simp [hm, he]
        all_goals exact hnan2
      | some q =>
        simp [hm, he, hexp]
        all_goals exact hnan2

/-! ## Lemmas about digit strings (for the thousands-separator schema) -/

theorem digitChar_props (d : ℕ) (h : d < 10) :
    (Nat.digitChar d).isDigit = true ∧ (Nat.digitChar d).toLower = Nat.digitChar d
    ∧ (Nat.digitChar d).toNat - 48 = d := by
  interval_cases d <;> exact ⟨rfl, rfl, rfl⟩

theorem ne_of_isDigit {c x : Char} (hc : c.isDigit = true) (hx : x.isDigit = false) :
    c ≠ x := by
  intro he
  subst he
  rw [hc] at hx
  exact absurd hx (by simp)

theorem isPySpace_eq_false_of_isDigit {c : Char} (hc : c.isDigit = true) :
    isPySpace c = false := by
  simp only [isPySpace, Bool.or_eq_false_iff, decide_eq_false_iff_not]
  refine ⟨⟨⟨⟨⟨⟨?_, ?_⟩, ?_⟩, ?_⟩, ?_⟩, ?_⟩, ?_⟩ <;>
    exact ne_of_isDigit hc (by decide)

theorem mem_encodeDigits {c : Char} {ds : List ℕ} (h : c ∈ encodeDigits ds) :
    ∃ d ∈ ds, c = Nat.digitChar d := by
  obtain ⟨d, hd, rfl⟩ := List.mem_map.mp h
  exact ⟨d, hd, rfl⟩

theorem isDigit_of_mem_encodeDigits {c : Char} {ds : List ℕ}
    (hds : ∀ d ∈ ds, d < 10) (h : c ∈ encodeDigits ds) : c.isDigit = true := by
  obtain ⟨d, hd, rfl⟩ := mem_encodeDigits h
  exact (digitChar_props d (hds d hd)).1

theorem dropWhile_eq_self_of_all {p : Char → Bool} {l : LStr}
    (h : ∀ c ∈ l, p c = false) : l.dropWhile p = l := by
  cases l with
  | nil => rfl
  | cons c t =>
    rw [List.dropWhile_cons]
    simp [h c (by simp)]

theorem pyStrip_eq_self_of_no_space {l : LStr}
    (h : ∀ c ∈ l, isPySpace c = false) : pyStrip l = l := by
  rw [pyStrip]
  rw [dropWhile_eq_self_of_all h]
  rw [dropWhile_eq_self_of_all (fun c hc => h c (List.mem_reverse.mp hc))]
  exact List.reverse_reverse l

theorem splitAtE_eq_of_no_e {r : LStr}
    (h : ∀ ch ∈ r, (ch = 'e' || ch = 'E') = false) : splitAtE r = (r, none) := by
  induction r with
  | nil => rfl
  | cons c t ih =>
    rw [splitAtE]
    simp only [h c (by simp), Bool.false_eq_true, if_false]
    rw [ih (fun ch hch => h ch (by simp [hch]))]

theorem splitDot_no_dot {m : LStr} (h : ∀ ch ∈ m, ch ≠ '.') : splitDot m = [m] := by
  induction m with
  | nil => rfl
  | cons c t ih =>
    rw [splitDot]
    simp only [if_neg (h c (by simp))]
    rw [ih (fun ch hch => h ch (by simp [hch]))]

theorem splitDot_append {x y : LStr} (h : ∀ ch ∈ x, ch ≠ '.') :
    splitDot (x ++ '.' :: y) = x :: splitDot y := by
  induction x with
  | nil => simp [splitDot]
  | cons c t ih =>
    rw [List.cons_append, splitDot]
    simp only [if_neg (h c (by simp))]
    rw [ih (fun ch hch => h ch (by simp [hch]))]

theorem digitpartValid_of_digits {l : LStr} (hne : l ≠ [])
    (h : ∀ c ∈ l, c.isDigit = true) : digitpartValid l = true := by
  have hus : ∀ c ∈ l, c ≠ '_' := fun c hc => ne_of_isDigit (h c hc) (by decide)
  rw [digitpartValid]
  simp only [Bool.and_eq_true]
  refine ⟨⟨⟨⟨?_, ?_⟩, ?_⟩, ?_⟩, ?_⟩
  · cases l with
    | nil => exact absurd rfl hne
    | cons c t => simp
  · rw [List.all_eq_true]
    intro c hc
    simp [h c hc]
  · cases l with
    | nil => exact absurd rfl hne
    | cons c t => simpa using h c (by simp)
  · cases hl : l.getLast? with
    | none => rw [List.getLast?_eq_none_iff] at hl; exact absurd hl hne
    | some c =>
      have hmem : c ∈ l := List.mem_of_mem_getLast? hl
      simpa using h c hmem
  · rw [List.all_eq_true]
    intro p hp
    have hm := (List.of_mem_zip hp).1
    simp [hus p.1 hm]

theorem filter_underscore_of_digits {l : LStr} (h : ∀ c ∈ l, c.isDigit = true) :
    l.filter (fun c => !(c = '_')) = l := by
  apply List.filter_eq_self.mpr
  intro c hc
  have h2 : c ≠ '_' := ne_of_isDigit (h c hc) (by decide)
  simp [h2]

theorem digitsToNat_encode_acc (x : List ℕ) (hx : ∀ d ∈ x, d < 10) :
    ∀ acc : ℕ, (encodeDigits x).foldl (fun acc c => 10 * acc + (c.toNat - 48)) acc
      = x.foldl (fun acc d => 10 * acc + d) acc := by
  induction x with
  | nil => intro acc; rfl
  | cons d t ih =>
    intro acc
    rw [encodeDigits, List.map_cons, List.foldl_cons, List.foldl_cons]
    rw [(digitChar_props d (hx d (by simp))).2.2]
    exact ih (fun e he => hx e (by simp [he])) (10 * acc + d)

theorem digitsToNat_encodeDigits (x : List ℕ) (hx : ∀ d ∈ x, d < 10) :
    digitsToNat (encodeDigits x) = natOfDigits x :=
  digitsToNat_encode_acc x hx 0

theorem dpVal_encodeDigits (x : List ℕ) (hx : ∀ d ∈ x, d < 10) :
    dpVal (encodeDigits x) = natOfDigits x := by
  rw [dpVal, filter_underscore_of_digits (fun c hc => isDigit_of_mem_encodeDigits hx hc)]
  exact digitsToNat_encodeDigits x hx

theorem digCount_encodeDigits (x : List ℕ) (hx : ∀ d ∈ x, d < 10) :
    digCount (encodeDigits x) = x.length := by
  rw [digCount, filter_underscore_of_digits (fun c hc => isDigit_of_mem_encodeDigits hx hc)]
  simp [encodeDigits]

theorem countDots_eq_zero_of_digits {l : LStr} (h : ∀ c ∈ l, c.isDigit = true) :
    countDots l = 0 := by
  rw [countDots, List.count_eq_zero]
  intro hmem
  have := h '.' hmem
  simp at this

theorem toLowerChars_eq_self {l : LStr} (h : ∀ c ∈ l, c.toLower = c) :
    toLowerChars l = l := by
  rw [toLowerChars, List.map_congr_left h]
  simp

theorem deleteAllF_eq_self (p0 : Char) (pr : LStr) :
    ∀ (fuel : ℕ) (l : LStr), p0 ∉ l → deleteAllF (p0 :: pr) fuel l = l := by
  intro fuel
  induction fuel with
  | zero => intro l _; rfl
  | succ f ih =>
    intro l h
    cases l with
    | nil => rfl
    | cons c t =>
      rw [deleteAllF]
      have hne : p0 ≠ c := fun he => h (he ▸ List.mem_cons_self c t)
      have hpre : (p0 :: pr).isPrefixOf (c :: t) = false := by
        simp [List.isPrefixOf, hne]
      rw [hpre]
      simp only [Bool.false_eq_true, if_false]
      rw [ih t (fun hm => h (List.mem_cons_of_mem c hm))]

theorem deleteAll_eq_self (p0 : Char) (pr : LStr) (l : LStr) (h : p0 ∉ l) :
    deleteAll (p0 :: pr) l = l :=
  deleteAllF_eq_self p0 pr l.length l h

theorem pyFloat?_digit_schema (x y : List ℕ) (hx : ∀ d ∈ x, d < 10)
    (hy : ∀ d ∈ y, d < 10) (hnex : x ≠ []) :
    pyFloat? (encodeDigits x ++ '.' :: encodeDigits y)
      = some (PyVal.num ((natOfDigits x : ℚ)
          + (natOfDigits y : ℚ) / 10 ^ y.length)) := by
  obtain ⟨d0, x', rfl⟩ : ∃ d0 x', x = d0 :: x' := by
    cases x with
    | nil => exact absurd rfl hnex
    | cons d0 x' => exact ⟨d0, x', rfl⟩
  set D := encodeDigits (d0 :: x') ++ '.' :: encodeDigits y with hD
  have hchar : ∀ ch ∈ D, ch.isDigit = true ∨ ch = '.' := by
    intro ch hch
    rw [hD] at hch
    rcases List.mem_append.mp hch with h | h
    · exact Or.inl (isDigit_of_mem_encodeDigits hx h)
    · rcases List.mem_cons.mp h with h | h
      · exact Or.inr h
      · exact Or.inl (isDigit_of_mem_encodeDigits hy h)
  have hsp : ∀ ch ∈ D, isPySpace ch = false := by
    intro ch hch
    rcases hchar ch hch with h | h
    · exact isPySpace_eq_false_of_isDigit h
    · subst h; decide
  have hstrip : pyStrip D = D := pyStrip_eq_self_of_no_space hsp
  have hd0 : (Nat.digitChar d0).isDigit = true := (digitChar_props d0 (hx d0 (by simp))).1
  have hDcons : D = Nat.digitChar d0 :: (encodeDigits x' ++ '.' :: encodeDigits y) := by
    rw [hD]; simp [encodeDigits]
  have hsgn : stripSign D = (false, D) := by
    have h1 : Nat.digitChar d0 ≠ '+' := ne_of_isDigit hd0 (by decide)
    have h2 : Nat.digitChar d0 ≠ '-' := ne_of_isDigit hd0 (by decide)
    rw [hDcons, stripSign]
    simp [h1, h2]
  have hdots : countDots D = 1 := by
    have h1 : countDots (encodeDigits (d0 :: x')) = 0 :=
      countDots_eq_zero_of_digits (fun ch hch => isDigit_of_mem_encodeDigits hx hch)
    have h2 : countDots (encodeDigits y) = 0 :=
      countDots_eq_zero_of_digits (fun ch hch => isDigit_of_mem_encodeDigits hy hch)
    rw [hD]
    simp only [countDots, List.count_append, List.count_cons] at h1 h2 ⊢
    simp at h1 h2 ⊢
    omega
  have hlow := countDots_le_toLowerChars D
  rw [hdots] at hlow
  have hif1 : (decide (toLowerChars D = chars "inf")
      || decide (toLowerChars D = chars "infinity")) = false := by
    rw [Bool.or_eq_false_iff]
    constructor
    · rw [decide_eq_false_iff_not]
      intro he
      rw [he] at hlow
      have : countDots (chars "inf") = 0 := by decide
      omega
    · rw [decide_eq_false_iff_not]
      intro he
      rw [he] at hlow
      have : countDots (chars "infinity") = 0 := by decide
      omega
  have hif2 : decide (toLowerChars D = chars "nan") = false := by
    rw [decide_eq_false_iff_not]
    intro he
    rw [he] at hlow
    have : countDots (chars "nan") = 0 := by decide
    omega
  have hAtE : splitAtE D = (D, none) := by
    apply splitAtE_eq_of_no_e
    intro ch hch
    rcases hchar ch hch with h | h
    · rw [Bool.or_eq_false_iff]
      constructor
      · rw [decide_eq_false_iff_not]
        exact ne_of_isDigit h (by decide)
      · rw [decide_eq_false_iff_not]
        exact ne_of_isDigit h (by decide)
    · subst h; decide
  have hxne : ∀ ch ∈ encodeDigits (d0 :: x'), ch ≠ '.' :=
    fun ch hch => ne_of_isDigit (isDigit_of_mem_encodeDigits hx hch) (by decide)
  have hyne : ∀ ch ∈ encodeDigits y, ch ≠ '.' :=
    fun ch hch => ne_of_isDigit (isDigit_of_mem_encodeDigits hy hch) (by decide)
  have hsplit : splitDot D = [encodeDigits (d0 :: x'), encodeDigits y] := by
    rw [hD, splitDot_append hxne, splitDot_no_dot hyne]
  have hipv : digitpartValid (encodeDigits (d0 :: x')) = true :=
    digitpartValid_of_digits (by simp [encodeDigits])
      (fun ch hch => isDigit_of_mem_encodeDigits hx hch)
  have hfp : (List.isEmpty (encodeDigits y) || digitpartValid (encodeDigits y)) = true := by
    cases y with
    | nil => simp [encodeDigits]
    | cons e y' =>
      rw [Bool.or_eq_true]
      exact Or.inr (digitpartValid_of_digits (by simp [encodeDigits])
        (fun ch hch => isDigit_of_mem_encodeDigits hy hch))
  have hipne : List.isEmpty (encodeDigits (d0 :: x')) = false := by simp [encodeDigits]
  have hmant : mantissaVal? D
      = some ((natOfDigits (d0 :: x') : ℚ) + (natOfDigits y : ℚ) / 10 ^ y.length) := by
    rw [mantissaVal?, hsplit]
    simp only [hipne, hipv, hfp, Bool.true_or, Bool.or_true, Bool.true_and,
      Bool.false_and, Bool.not_false, Bool.and_true, if_true]
    rw [dpVal_encodeDigits (d0 :: x') hx, dpVal_encodeDigits y hy,
      digCount_encodeDigits y hy]
  have hif2n : ¬toLowerChars D = chars "nan" := by simpa using hif2
  simp only [pyFloat?, hstrip, hsgn, hif1, hif2, Bool.false_eq_true, if_false,
    hAtE, hmant]
  rw [if_neg hif2n]

theorem filter_ne_eq_self {ch0 : Char} {l : LStr} (h : ∀ ch ∈ l, ch ≠ ch0) :
    l.filter (fun ch => !(ch = ch0)) = l := by
  apply List.filter_eq_self.mpr
  intro ch hch
  simp [h ch hch]

theorem pyFloat?_digit_schema_int (x : List ℕ) (hx : ∀ d ∈ x, d < 10)
    (hnex : x ≠ []) :
    pyFloat? (encodeDigits x) = some (PyVal.num (natOfDigits x : ℚ)) := by
  obtain ⟨d0, x', rfl⟩ : ∃ d0 x', x = d0 :: x' := by
    cases x with
    | nil => exact absurd rfl hnex
    | cons d0 x' => exact ⟨d0, x', rfl⟩
  set D := encodeDigits (d0 :: x') with hD
  have hdig : ∀ ch ∈ D, ch.isDigit = true :=
    fun ch hch => isDigit_of_mem_encodeDigits hx hch
  have hstrip : pyStrip D = D :=
    pyStrip_eq_self_of_no_space
      (fun ch hch => isPySpace_eq_false_of_isDigit (hdig ch hch))
  have hd0 : (Nat.digitChar d0).isDigit = true := (digitChar_props d0 (hx d0 (by simp))).1
  have hDcons : D = Nat.digitChar d0 :: encodeDigits x' := by
    rw [hD]; simp [encodeDigits]
  have hsgn : stripSign D = (false, D) := by
    have h1 : Nat.digitChar d0 ≠ '+' := ne_of_isDigit hd0 (by decide)
    have h2 : Nat.digitChar d0 ≠ '-' := ne_of_isDigit hd0 (by decide)
    rw [hDcons, stripSign]
    simp [h1, h2]
  have hlowid : toLowerChars D = D :=
    toLowerChars_eq_self (fun ch hch => by
      obtain ⟨d, hd, rfl⟩ := mem_encodeDigits hch
      exact (digitChar_props d (hx d hd)).2.1)
  have hhead : ∀ (h0 : Char) (t' : LStr), h0.isDigit = false → D ≠ h0 :: t' := by
    intro h0 t' hh0 he
    rw [hDcons] at he
    have h1 : Nat.digitChar d0 = h0 := by injection he
    rw [h1, hh0] at hd0
    exact absurd hd0 (by simp)
  have hif1 : (decide (toLowerChars D = chars "inf")
      || decide (toLowerChars D = chars "infinity")) = false := by
    rw [Bool.or_eq_false_iff]
    constructor
    · rw [decide_eq_false_iff_not, hlowid]
      exact hhead 'i' ['n', 'f'] (by decide)
    · rw [decide_eq_false_iff_not, hlowid]
      exact hhead 'i' ['n', 'f', 'i', 'n', 'i', 't', 'y'] (by decide)
  have hif2n : ¬toLowerChars D = chars "nan" := by
    rw [hlowid]
    exact hhead 'n' ['a', 'n'] (by decide)
  have hif2 : decide (toLowerChars D = chars "nan") = false := by simpa using hif2n
  have hAtE : splitAtE D = (D, none) := by
    apply splitAtE_eq_of_no_e
    intro ch hch
    rw [Bool.or_eq_false_iff]
    constructor
    · rw [decide_eq_false_iff_not]
      exact ne_of_isDigit (hdig ch hch) (by decide)
    · rw [decide_eq_false_iff_not]
      exact ne_of_isDigit (hdig ch hch) (by decide)
  have hsplit : splitDot D = [D] :=
    splitDot_no_dot (fun ch hch => ne_of_isDigit (hdig ch hch) (by decide))
  have hipv : digitpartValid D = true :=
    digitpartValid_of_digits (by rw [hDcons]; simp) hdig
  have hmant : mantissaVal? D = some (natOfDigits (d0 :: x') : ℚ) := by
    rw [mantissaVal?, hsplit]
    dsimp only
    rw [if_pos hipv]
    rw [hD, dpVal_encodeDigits (d0 :: x') hx]
  simp only [pyFloat?, hstrip, hsgn, hif1, hif2, Bool.false_eq_true, if_false,
    hAtE, hmant]
  rw [if_neg hif2n]

theorem filter_pct_comma_digits (z : List ℕ) (hz : ∀ d ∈ z, d < 10) :
    (encodeDigits z).filter (fun ch => !(ch = '%') && !(ch = ',')) = encodeDigits z := by
  apply List.filter_eq_self.mpr
  intro ch hch
  have h1 : ch ≠ '%' := ne_of_isDigit (isDigit_of_mem_encodeDigits hz hch) (by decide)
  have h2 : ch ≠ ',' := ne_of_isDigit (isDigit_of_mem_encodeDigits hz hch) (by decide)
  simp [h1, h2]

theorem commaJoin_chars (g : List ℕ) (gs : List (List ℕ))
    (hg : ∀ d ∈ g, d < 10) (hgs : ∀ z ∈ gs, ∀ d ∈ z, d < 10) :
    ∀ ch ∈ commaJoin g gs, (∃ d, d < 10 ∧ ch = Nat.digitChar d) ∨ ch = ',' := by
  intro ch hch
  rw [commaJoin] at hch
  rcases List.mem_append.mp hch with h | h
  · obtain ⟨d, hd, rfl⟩ := mem_encodeDigits h
    exact Or.inl ⟨d, hg d hd, rfl⟩
  · obtain ⟨l, hl, hchl⟩ := List.mem_flatten.mp h
    obtain ⟨z, hz, rfl⟩ := List.mem_map.mp hl
    rcases List.mem_cons.mp hchl with h2 | h2
    · exact Or.inr h2
    · obtain ⟨d, hd, rfl⟩ := mem_encodeDigits h2
      exact Or.inl ⟨d, hgs z hz d hd, rfl⟩

theorem filter_commaJoin_groups (gs : List (List ℕ))
    (hgs : ∀ z ∈ gs, ∀ d ∈ z, d < 10) :
    ((gs.map (fun z => ',' :: encodeDigits z)).flatten).filter
        (fun ch => !(ch = '%') && !(ch = ',')) = encodeDigits gs.flatten := by
  induction gs with
  | nil => rfl
  | cons z gs' ih =>
    simp only [List.map_cons, List.flatten_cons, List.filter_append, List.filter_cons]
    rw [filter_pct_comma_digits z (hgs z (by simp)),
      ih (fun z' hz' => hgs z' (by simp [hz']))]
    simp +decide [encodeDigits, List.map_append]

theorem filters_commaJoin (g : List ℕ) (gs : List (List ℕ)) (fr : LStr)
    (hg : ∀ d ∈ g, d < 10) (hgs : ∀ z ∈ gs, ∀ d ∈ z, d < 10)
    (hfr : ∀ ch ∈ fr, ch ≠ ',' ∧ ch ≠ '%') :
    ((commaJoin g gs ++ (fr ++ ['%'])).filter (fun ch => !(ch = ','))).filter
        (fun ch => !(ch = '%'))
      = encodeDigits (g ++ gs.flatten) ++ fr := by
  rw [List.filter_filter, commaJoin]
  simp only [List.filter_append]
  rw [filter_pct_comma_digits g hg, filter_commaJoin_groups gs hgs]
  have hfrf : fr.filter (fun ch => !(ch = '%') && !(ch = ',')) = fr := by
    apply List.filter_eq_self.mpr
    intro ch hch
    simp [(hfr ch hch).1, (hfr ch hch).2]
  have hp : (['%'] : LStr).filter (fun ch => !(ch = '%') && !(ch = ',')) = [] := by
    decide
  rw [hfrf, hp]
  simp [encodeDigits, List.map_append, List.append_assoc]

theorem filtered_chars (v : LStr)
    (hv : ∀ ch ∈ v, (∃ d, d < 10 ∧ ch = Nat.digitChar d) ∨ ch = ',' ∨ ch = '.' ∨ ch = '%') :
    ∀ ch ∈ (v.filter (fun ch => !(ch = ','))).filter (fun ch => !(ch = '%')),
      (∃ d, d < 10 ∧ ch = Nat.digitChar d) ∨ ch = '.' := by
  intro ch hch
  have h2 := List.mem_filter.mp hch
  have h3 := List.mem_filter.mp h2.1
  have hne2 : ch ≠ '%' := by simpa using h2.2
  have hne1 : ch ≠ ',' := by simpa using h3.2
  rcases hv ch h3.1 with h | h | h | h
  · exact Or.inl h
  · exact absurd h hne1
  · exact Or.inr h
  · exact absurd h hne2

theorem cleaned_eq_filters (v : LStr)
    (hv : ∀ ch ∈ v, (∃ d, d < 10 ∧ ch = Nat.digitChar d) ∨ ch = ',' ∨ ch = '.' ∨ ch = '%') :
    IngestData.cleaned v
      = (v.filter (fun ch => !(ch = ','))).filter (fun ch => !(ch = '%')) := by
  have hW := filtered_chars v hv
  rw [IngestData.cleaned]
  rw [pyStrip_eq_self_of_no_space (fun ch hch => by
    rcases hW ch hch with ⟨d, hd, rfl⟩ | h
    · exact isPySpace_eq_false_of_isDigit (digitChar_props d hd).1
    · subst h; decide)]
  apply toLowerChars_eq_self
  intro ch hch
  rcases hW ch hch with ⟨d, hd, rfl⟩ | h
  · exact (digitChar_props d hd).2.1
  · subst h; exact toLower_dot

theorem resid_eq_filters (v : LStr)
    (hv : ∀ ch ∈ v, (∃ d, d < 10 ∧ ch = Nat.digitChar d) ∨ ch = ',' ∨ ch = '.' ∨ ch = '%') :
    IngestRescue.resid v
      = (v.filter (fun ch => !(ch = ','))).filter (fun ch => !(ch = '%')) := by
  have hW := filtered_chars v hv
  have hmap : v.map (fun ch => if ch = Char.ofNat 160 then ' ' else ch) = v := by
    have hcg : ∀ ch ∈ v, (if ch = Char.ofNat 160 then ' ' else ch) = ch := by
      intro ch hch
      have hne : ch ≠ Char.ofNat 160 := by
        rcases hv ch hch with ⟨d, hd, rfl⟩ | h | h | h
        · exact ne_of_isDigit (digitChar_props d hd).1 (by decide)
        · subst h; decide
        · subst h; decide
        · subst h; decide
      simp [hne]
    rw [List.map_congr_left hcg]
    simp
  have hnoR : 'R' ∉ (v.filter (fun ch => !(ch = ','))).filter (fun ch => !(ch = '%')) := by
    intro hmem
    rcases hW 'R' hmem with ⟨d, hd, he⟩ | he
    · have h1 := (digitChar_props d hd).1
      rw [← he] at h1
      exact absurd h1 (by decide)
    · exact absurd he (by decide)
  have hkeep : ((v.filter (fun ch => !(ch = ','))).filter
        (fun ch => !(ch = '%'))).filter keepNumChar
      = (v.filter (fun ch => !(ch = ','))).filter (fun ch => !(ch = '%')) := by
    apply List.filter_eq_self.mpr
    intro ch hch
    rcases hW ch hch with ⟨d, hd, rfl⟩ | h
    · simp [keepNumChar, (digitChar_props d hd).1]
    · subst h; decide
  simp only [IngestRescue.resid]
  rw [hmap]
  rw [show chars "Rs." = 'R' :: ['s', '.'] from rfl,
    show chars "Rs" = 'R' :: ['s'] from rfl]
  rw [deleteAll_eq_self 'R' ['s', '.'] _ hnoR, deleteAll_eq_self 'R' ['s'] _ hnoR, hkeep]
  exact pyStrip_eq_self_of_no_space (fun ch hch => by
    rcases hW ch hch with ⟨d, hd, rfl⟩ | h
    · exact isPySpace_eq_false_of_isDigit (digitChar_props d hd).1
    · subst h; decide)

/-! # Claims -/

/-- **C9.** The `upsert` operation mutates its input: it removes the
`"insurer_id"` key from every record dict it processes, so after the call none
of the caller's record dicts still contains `"insurer_id"`, and a second call
of `upsert` on the same record list writes zero rows (every record is then
skipped by the missing-identifier check) and leaves the database unchanged. -/
theorem upsert_pops_ids_and_second_call_writes_nothing
    (db : List DBRow) (year : ℤ) (recs : List PyRec) :
    (∀ r ∈ (upsert db year recs).2.1, lookupRec r (chars "insurer_id") = none)
    ∧ upsert (upsert db year recs).1 year (upsert db year recs).2.1
        = ((upsert db year recs).1, (upsert db year recs).2.1, 0) := by
  by_cases hemp : recs.isEmpty
  · constructor
    · intro r hr
      simp [upsert, hemp] at hr
      rw [List.isEmpty_iff] at hemp
      subst hemp
      simp at hr
    · simp [upsert, hemp]
  · have hshape : (upsert db year recs).2.1
        = recs.map (fun r => (popKey r (chars "insurer_id")).2) := by
      simp only [upsert, if_neg hemp]
      rw [upsertGo_acc]
      simp
    have hall : ∀ r ∈ (upsert db year recs).2.1,
        lookupRec r (chars "insurer_id") = none := by
      intro r hr
      rw [hshape] at hr
      obtain ⟨r0, _, hr0⟩ := List.mem_map.mp hr
      rw [← hr0]
      exact lookupRec_popKey r0 (chars "insurer_id")
    refine ⟨hall, ?_⟩
    have hne : ((upsert db year recs).2.1).isEmpty = false := by
      rw [hshape]
      cases recs with
      | nil => simp at hemp
      | cons a l => simp
    have hcall : upsert (upsert db year recs).1 year (upsert db year recs).2.1
        = upsertGo year (upsert db year recs).1 ((upsert db year recs).2.1) [] 0 := by
      rw [upsert, if_neg (by rw [hne]; simp)]
    rw [hcall, upsertGo_skips_popped year _ _ hall [] 0]
    simp

/-- **C1, counterexample.** The claim states that a later partial write for the
same `(entity, year)` key leaves previously persisted metrics for omitted
columns unchanged.  In fact `INSERT OR REPLACE` replaces the whole row: after
persisting `{m1: 1, m2: 2}` for entity 1 / year 2024, a later write of the
partial record `{m1: 5}` for the same key leaves the stored `m2` absent
(`NULL`), although it was `2` before the write. -/
theorem upsert_partial_write_drops_stored_metric :
    storedMetric
        (upsert
          (upsert [] 2024
            [[(chars "insurer_id", PyVal.int 1), (chars "m1", PyVal.num 1),
              (chars "m2", PyVal.num 2)]]).1
          2024
          [[(chars "insurer_id", PyVal.int 1), (chars "m1", PyVal.num 5)]]).1
        (PyVal.int 1) 2024 (chars "m2") = none
    ∧ storedMetric
        (upsert [] 2024
          [[(chars "insurer_id", PyVal.int 1), (chars "m1", PyVal.num 1),
            (chars "m2", PyVal.num 2)]]).1
        (PyVal.int 1) 2024 (chars "m2") = some (PyVal.num 2) := by
  decide

/-- **C1, amended.** The persistence write is a whole-row replace, not a
column-level upsert: after `upsert` writes a record for a truthy entity
identifier, the stored row for that `(entity, year)` key holds exactly the
incoming record's columns — every metric the incoming record omits reads back
as absent, regardless of what was stored before. -/
theorem upsert_write_is_whole_row_replace (db : List DBRow) (year : ℤ)
    (rec : PyRec) (v : PyVal)
    (h1 : lookupRec rec (chars "insurer_id") = some v) (h2 : truthy v = true) :
    ∀ m, storedMetric (upsert db year [rec]).1 v year m
      = lookupRec (popKey rec (chars "insurer_id")).2 m := by
  intro m
  have hpop : (popKey rec (chars "insurer_id")).1 = some v := h1
  have hup : (upsert db year [rec]).1
      = insertOrReplace db v year (popKey rec (chars "insurer_id")).2 := by
    simp [upsert, upsertGo, hpop, h2]
  have hleft : List.find? (fun r => decide (r.insurer_id = v ∧ r.year = year))
      (List.filter (fun r => !decide (r.insurer_id = v ∧ r.year = year)) db)
      = none := by
    rw [List.find?_eq_none]
    intro x hx
    have hx2 := (List.mem_filter.mp hx).2
    simp only [Bool.not_eq_true'] at hx2
    simp [hx2]
  rw [hup]
  simp only [storedMetric, insertOrReplace, List.find?_append, hleft, Option.none_or]
  simp [List.find?]

/-- Witness for `upsert_write_is_whole_row_replace`: writing the partial record
`{insurer_id: 1, m1: 5}` leaves the stored `m2` for the key absent. -/
theorem upsert_write_is_whole_row_replace_witness :
    storedMetric
        (upsert [] 2024 [[(chars "insurer_id", PyVal.int 1), (chars "m1", PyVal.num 5)]]).1
        (PyVal.int 1) 2024 (chars "m2") = none := by
  have h := upsert_write_is_whole_row_replace [] 2024
    [(chars "insurer_id", PyVal.int 1), (chars "m1", PyVal.num 5)]
    (PyVal.int 1) (by decide) (by decide) (chars "m2")
  rw [h]
  decide

/-- **C10.** A raw name that resolves to a falsy identifier (the integer `0`)
is treated as unresolved: the row loop of `parse_table` adds the raw name to
the unmatched set and emits no observation for it, and `upsert` silently skips
any record whose `insurer_id` is falsy — both filters are truthiness tests
(`if not iid`), not tests for `None`. -/
theorem falsy_id_treated_as_unresolved (scorer : Scorer) (names : List LStr)
    (ids : List (LStr × ℤ)) (nameIdx valIdx : ℕ) (label : LStr)
    (row : List LStr) (out : List PyRec) (unmatched : List LStr)
    (h1 : pyStrip (row.getD nameIdx []) ≠ [])
    (h2 : toLowerChars (pyStrip (row.getD nameIdx [])) ≠ chars "total")
    (h3 : toLowerChars (pyStrip (row.getD nameIdx [])) ≠ chars "grand total")
    (h4 : map_id scorer (pyStrip (row.getD nameIdx [])) names ids = some 0) :
    rowStep scorer names ids nameIdx valIdx label (out, unmatched) row
      = (out, sInsert unmatched (pyStrip (row.getD nameIdx [])))
    ∧ ∀ (db : List DBRow) (year : ℤ) (rec : PyRec),
        lookupRec rec (chars "insurer_id") = some (PyVal.int 0) →
        upsert db year [rec] = (db, [(popKey rec (chars "insurer_id")).2], 0) := by
  constructor
  · simp only [rowStep, if_neg (not_or.mpr ⟨h1, not_or.mpr ⟨h2, h3⟩⟩), h4]
    simp [truthyId]
  · intro db year rec h
    have hpop : (popKey rec (chars "insurer_id")).1 = some (PyVal.int 0) := h
    simp [upsert, upsertGo, hpop, truthy]

/-- Witness for `falsy_id_treated_as_unresolved`: a registry entry mapping
`"ZeroCo"` to identifier `0` sends the row's name to the unmatched set and
its record is skipped by `upsert`. -/
theorem falsy_id_treated_as_unresolved_witness :
    rowStep (constScore 0) [] [(chars "ZeroCo", 0)] 0 1 (chars "solvency_ratio")
        ([], []) [chars "ZeroCo", chars "5"]
      = ([], [chars "ZeroCo"])
    ∧ upsert [] 2024 [[(chars "insurer_id", PyVal.int 0), (chars "m1", PyVal.num 5)]]
      = ([], [[(chars "m1", PyVal.num 5)]], 0) := by
  have h := falsy_id_treated_as_unresolved (constScore 0) [] [(chars "ZeroCo", 0)]
    0 1 (chars "solvency_ratio") [chars "ZeroCo", chars "5"] [] []
    (by decide) (by decide) (by decide) (by decide)
  constructor
  · rw [h.1]; decide
  · rw [h.2 [] 2024 [(chars "insurer_id", PyVal.int 0), (chars "m1", PyVal.num 5)]
      (by decide)]
    decide

/-- **C2, counterexample.** The claim states that any casing variant of a
canonical name resolves through the exact-match path and that name matching is
case-insensitive.  In fact `normalize` only collapses whitespace — it does not
fold case — and the dictionary lookup `n in ids` is case-sensitive: with
`"Acme Life"` canonical in the registry, the raw string `"ACME LIFE"` is a
casing variant of it (the two agree after case folding), yet the exact-match
lookup used by `map_id` fails on it. -/
theorem exact_match_is_case_sensitive :
    toLowerChars (pyNormalize (chars "ACME LIFE")) = toLowerChars (chars "Acme Life")
    ∧ lookupName (pyNormalize (chars "ACME LIFE")) [(chars "Acme Life", 1)] = none := by
  decide

/-- **C2, amended.** Whitespace variants with identical casing do resolve
through the exact-match path, which takes precedence over approximate scoring:
for every raw string whose normalization (whitespace collapse and trim) equals
a registry key exactly — same casing — `map_id` returns that entry's
identifier, whatever the fuzzy scorer would say.  Exact-name matching is
case-sensitive, so pure casing variants fall through to approximate scoring
instead. -/
theorem exact_match_whitespace_variants (scorer : Scorer) (raw name : LStr)
    (i : ℤ) (names : List LStr) (ids : List (LStr × ℤ))
    (hn : pyNormalize raw = name) (hl : lookupName name ids = some i) :
    map_id scorer raw names ids = some i := by
  simp [map_id, hn, hl]

/-- Witness for `exact_match_whitespace_variants`: `"  Acme   Life "`
normalizes to the canonical `"Acme Life"` and resolves to identifier 1 under
an arbitrary (here constantly zero) scorer. -/
theorem exact_match_whitespace_variants_witness :
    map_id (constScore 0) (chars "  Acme   Life ") [chars "Acme Life"]
      [(chars "Acme Life", 1)] = some 1 :=
  exact_match_whitespace_variants (constScore 0) (chars "  Acme   Life ")
    (chars "Acme Life") 1 [chars "Acme Life"] [(chars "Acme Life", 1)]
    (by decide) (by decide)

/-- **C7.** For every raw cell value equal to the empty string, `"-"`, `"."`,
`"na"` or `"n/a"` in any letter casing (all casings of these tokens are
enumerated below), the Value Cleaner returns absent — in both textual variants
of `clean_num`.  (In `ingest_data.py` the token `"."` is not in the null-token
tuple, but `float(".")` raises and the `except` returns `None` all the same.) -/
theorem clean_num_null_tokens :
    ∀ v ∈ [chars "", chars "-", chars ".", chars "na", chars "nA", chars "Na",
        chars "NA", chars "n/a", chars "n/A", chars "N/a", chars "N/A"],
      IngestData.clean_num v = none ∧ IngestRescue.clean_num v = none := by
  decide

/-- Witness for `clean_num_null_tokens` at the casing variant `"N/A"`. -/
theorem clean_num_null_tokens_witness :
    IngestData.clean_num (chars "N/A") = none
    ∧ IngestRescue.clean_num (chars "N/A") = none :=
  clean_num_null_tokens (chars "N/A") (by decide)

/-- **C4.** For every raw name with no exact match among the normalized known
names, `map_id` returns the identifier of the best fuzzy match (the
`extractOne` maximizer over the known-name list) iff that match's score is at
least 85; below 85 it returns unresolved (`None`).  Stated for an arbitrary
scorer standing for `rapidfuzz.fuzz.WRatio`; the hypothesis `hreg` records the
registry construction invariant that every entry of `names` is a key of
`ids`. -/
theorem map_id_accepts_iff_score_ge_85 (scorer : Scorer) (raw : LStr)
    (names : List LStr) (ids : List (LStr × ℤ))
    (hex : lookupName (pyNormalize raw) ids = none)
    (hreg : ∀ nm ∈ names, (lookupName nm ids).isSome = true) :
    ((map_id scorer raw names ids).isSome = true ↔
      ∃ nm sc, extractOne scorer (pyNormalize raw) names = some (nm, sc) ∧ 85 ≤ sc)
    ∧ ∀ nm sc, extractOne scorer (pyNormalize raw) names = some (nm, sc) →
        (∀ x ∈ names, scorer (pyNormalize raw) x ≤ sc)
        ∧ (85 ≤ sc → map_id scorer raw names ids = lookupName nm ids)
        ∧ (sc < 85 → map_id scorer raw names ids = none) := by
  cases h : extractOne scorer (pyNormalize raw) names with
  | none =>
    have hm : map_id scorer raw names ids = none := by
      simp [map_id, hex, h]
    constructor
    · rw [hm]
      simp [h]
    · intro nm sc hns
      simp at hns
  | some m =>
    obtain ⟨hmem, hsc, hmax⟩ :=
      extractOne_spec scorer (pyNormalize raw) names m.1 m.2 (by rw [h])
    have hm : map_id scorer raw names ids
        = if 85 ≤ m.2 then lookupName m.1 ids else none := by
      simp [map_id, hex, h]
    constructor
    · by_cases hth : 85 ≤ m.2
      · rw [hm, if_pos hth]
        constructor
        · intro _
          exact ⟨m.1, m.2, by simp, hth⟩
        · intro _
          exact hreg m.1 hmem
      · rw [hm, if_neg hth]
        simp only [Option.isSome_none, Bool.false_eq_true, false_iff]
        rintro ⟨nm, sc, hns, hge⟩
        have : m = (nm, sc) := by simpa using hns
        rw [this] at hth
        exact hth hge
    · intro nm sc hns
      have hmsc : m = (nm, sc) := by simpa using hns
      rw [hmsc] at hm hmax
      refine ⟨hmax, ?_, ?_⟩
      · intro hge
        rw [hm, if_pos hge]
      · intro hlt
        rw [hm, if_neg (not_le.mpr hlt)]

/-- Witness for `map_id_accepts_iff_score_ge_85`: with canonical name
`"Barn Life"` (identifier 7) and no exact match for `"Barn Lyfe"`, a scorer
that returns 90 everywhere makes `map_id` resolve to 7. -/
theorem map_id_accepts_iff_score_ge_85_witness :
    (map_id (constScore 90) (chars "Barn Lyfe") [chars "Barn Life"]
      [(chars "Barn Life", 7)]).isSome = true :=
  (map_id_accepts_iff_score_ge_85 (constScore 90) (chars "Barn Lyfe")
      [chars "Barn Life"] [(chars "Barn Life", 7)] (by decide) (by decide)).1.mpr
    ⟨chars "Barn Life", 90, by decide, by norm_num⟩

/-- **C5.** When no candidate phrase matches any column label exactly or by
substring containment (case-insensitively), `find_col` returns a column only
when the best approximate candidate–column score is at least 80, and that
score is the maximum over all candidate–column pairs; when every pair scores
below 80 it returns not-found (`None`).  Stated for an arbitrary scorer
standing for `rapidfuzz.fuzz.partial_ratio`. -/
theorem find_col_fuzzy_threshold (scorer : Scorer) (cols cands : List LStr)
    (hno : ∀ cand ∈ cands, ∀ c ∈ lcCols cols,
        (decide (toLowerChars cand = c) || isSubstrOf (toLowerChars cand) c) = false) :
    (∀ col, find_col scorer cols cands = some col →
      ∃ cand ∈ cands, ∃ c ∈ lcCols cols,
        80 ≤ scorer (toLowerChars cand) c ∧
        ∀ cand2 ∈ cands, ∀ c2 ∈ lcCols cols,
          scorer (toLowerChars cand2) c2 ≤ scorer (toLowerChars cand) c)
    ∧ ((∀ cand ∈ cands, ∀ c ∈ lcCols cols, scorer (toLowerChars cand) c < 80) →
        find_col scorer cols cands = none) := by
  have hphase : phase1 (lcCols cols) cands = none := (phase1_eq_none_iff _ _).mpr hno
  have hfc : find_col scorer cols cands
      = (match (bestLoop scorer (lcCols cols) cands (none, -1)).1 with
        | some p => if 80 ≤ (bestLoop scorer (lcCols cols) cands (none, -1)).2 then
            some (cols.getD p.2 []) else none
        | none => none) := by
    simp only [find_col, hphase]
  obtain ⟨hA, hB, hC⟩ := bestLoop_spec scorer (lcCols cols) cands (none, -1)
  constructor
  · intro col hcol
    rw [hfc] at hcol
    cases hb : (bestLoop scorer (lcCols cols) cands (none, -1)).1 with
    | none => rw [hb] at hcol; simp at hcol
    | some p =>
      rw [hb] at hcol
      dsimp only at hcol
      by_cases hth : 80 ≤ (bestLoop scorer (lcCols cols) cands (none, -1)).2
      · rcases hC with hC | ⟨cand, hcand, nm, hnm⟩
        · rw [hC] at hb; simp at hb
        · obtain ⟨hmem, hsc, hmax⟩ := extractOne_spec scorer (toLowerChars cand)
            (lcCols cols) nm _ hnm
          refine ⟨cand, hcand, nm, hmem, ?_, ?_⟩
          · rw [← hsc]; exact hth
          · intro cand2 hc2 c2 hcc2
            cases h2 : extractOne scorer (toLowerChars cand2) (lcCols cols) with
            | none =>
              have : lcCols cols = [] := (extractOne_eq_none_iff _ _ _).mp h2
              rw [this] at hcc2
              simp at hcc2
            | some m2 =>
              obtain ⟨_, hsc2, hmax2⟩ := extractOne_spec scorer (toLowerChars cand2)
                (lcCols cols) m2.1 m2.2 (by rw [h2])
              calc scorer (toLowerChars cand2) c2 ≤ m2.2 := hmax2 c2 hcc2
              _ ≤ (bestLoop scorer (lcCols cols) cands (none, -1)).2 :=
                  hA cand2 hc2 m2.1 m2.2 (by rw [h2])
              _ = scorer (toLowerChars cand) nm := hsc
      · rw [if_neg hth] at hcol
        simp at hcol
  · intro hlt
    rw [hfc]
    cases hb : (bestLoop scorer (lcCols cols) cands (none, -1)).1 with
    | none => simp
    | some p =>
      dsimp only
      rcases hC with hC | ⟨cand, hcand, nm, hnm⟩
      · rw [hC] at hb; simp at hb
      · obtain ⟨hmem, hsc, _⟩ := extractOne_spec scorer (toLowerChars cand)
          (lcCols cols) nm _ hnm
        have : (bestLoop scorer (lcCols cols) cands (none, -1)).2 < 80 := by
          rw [hsc]
          exact hlt cand hcand nm hmem
        simp only [if_neg (not_le.mpr this)]

/-- Witness for `find_col_fuzzy_threshold`: with column `"aaa"`, candidate
`"zzz"` (no equality and no containment) and a scorer constantly 90, the
resolver returns the column and the conclusion's best-scoring pair exists. -/
theorem find_col_fuzzy_threshold_witness :
    ∃ cand ∈ [chars "zzz"], ∃ c ∈ lcCols [chars "aaa"],
      80 ≤ constScore 90 (toLowerChars cand) c ∧
      ∀ cand2 ∈ [chars "zzz"], ∀ c2 ∈ lcCols [chars "aaa"],
        constScore 90 (toLowerChars cand2) c2 ≤ constScore 90 (toLowerChars cand) c :=
  (find_col_fuzzy_threshold (constScore 90) [chars "aaa"] [chars "zzz"]
      (by decide)).1 (chars "aaa") (by decide)

/-- **C3, counterexample.** The claim states that a case-insensitive exact
match between some candidate and some column takes precedence over substring
containment.  In fact both tests run in one candidate-major pass: with columns
`["alphatron", "beta"]` and candidates `["alpha", "beta"]`, the candidate
`"beta"` exactly equals the column `"beta"`, yet `find_col` returns
`"alphatron"` — a mere containment match of the earlier candidate `"alpha"` —
and the returned column equals no candidate. -/
theorem find_col_substring_beats_exact :
    (∃ cand ∈ [chars "alpha", chars "beta"], ∃ c ∈ lcCols [chars "alphatron", chars "beta"],
        toLowerChars cand = c)
    ∧ find_col (constScore 0) [chars "alphatron", chars "beta"]
        [chars "alpha", chars "beta"] = some (chars "alphatron")
    ∧ ∀ cand ∈ [chars "alpha", chars "beta"],
        toLowerChars cand ≠ pyStrip (toLowerChars (chars "alphatron")) := by
  decide

/-- **C3, amended.** Equality and containment are tested together, in a single
pass ordered by candidate first and column second: whenever some candidate
phrase exactly equals some column label (case-insensitively), `find_col`
returns a column from this first pass (never one from the approximate stage),
but the returned column is the first equality-or-containment hit in
candidate-major order — possibly a substring match of an earlier candidate
rather than the exactly-matching column. -/
theorem find_col_exact_implies_first_pass (scorer : Scorer) (cols cands : List LStr)
    (hex : ∃ cand ∈ cands, ∃ c ∈ lcCols cols, toLowerChars cand = c) :
    ∃ i, i < cols.length ∧ find_col scorer cols cands = some (cols.getD i [])
      ∧ ∃ cand ∈ cands,
          (toLowerChars cand = (lcCols cols).getD i []
            ∨ isSubstrOf (toLowerChars cand) ((lcCols cols).getD i []) = true) := by
  have hnotnone : phase1 (lcCols cols) cands ≠ none := by
    intro hnone
    obtain ⟨cand, hcand, c, hc, heq⟩ := hex
    have := (phase1_eq_none_iff _ _).mp hnone cand hcand c hc
    rw [heq] at this
    simp at this
  cases hp : phase1 (lcCols cols) cands with
  | none => exact absurd hp hnotnone
  | some i =>
    obtain ⟨hlt, cand, hcand, hpred⟩ := phase1_some_spec (lcCols cols) cands i hp
    refine ⟨i, ?_, ?_, cand, hcand, ?_⟩
    · simpa [lcCols] using hlt
    · simp [find_col, hp, List.getD]
    · rcases Bool.or_eq_true _ _ |>.mp hpred with h | h
      · exact Or.inl (of_decide_eq_true h)
      · exact Or.inr h

/-- Witness for `find_col_exact_implies_first_pass` at the counterexample
table: the returned column is `"alphatron"`, a containment match. -/
theorem find_col_exact_implies_first_pass_witness :
    ∃ i, i < ([chars "alphatron", chars "beta"] : List LStr).length
      ∧ find_col (constScore 0) [chars "alphatron", chars "beta"]
          [chars "alpha", chars "beta"]
          = some (([chars "alphatron", chars "beta"] : List LStr).getD i [])
      ∧ ∃ cand ∈ [chars "alpha", chars "beta"],
          (toLowerChars cand = (lcCols [chars "alphatron", chars "beta"]).getD i []
            ∨ isSubstrOf (toLowerChars cand)
                ((lcCols [chars "alphatron", chars "beta"]).getD i []) = true) :=
  find_col_exact_implies_first_pass (constScore 0)
    [chars "alphatron", chars "beta"] [chars "alpha", chars "beta"] (by decide)

/-- **C6.** The Value Cleaner is total: for every input cell value it returns
either a number or absent (`None`) and never raises — in the embedding the
`try/except` of `clean_num` is explicit (`pyFloat?` maps a would-be
`ValueError` to `none`), so every input yields `none` or a value, recorded as
the first conjunct.  And whenever the residual string after stripping contains
multiple decimal points, the cleaner returns absent, dropping only that cell:
second conjunct.  (After `re.sub(r"[^\d\.\-]", "", s)` the residual has no
other stray characters left, so the multiple-dot case is the malformed
residual of the claim.) -/
theorem clean_num_total_and_malformed_absent :
    (∀ v, IngestRescue.clean_num v = none ∨ ∃ q, IngestRescue.clean_num v = some q)
    ∧ ∀ s, 2 ≤ countDots (IngestRescue.resid s) → IngestRescue.clean_num s = none := by
  constructor
  · intro v
    cases h : IngestRescue.clean_num v with
    | none => exact Or.inl rfl
    | some q => exact Or.inr ⟨q, rfl⟩
  · intro s hd
    rw [IngestRescue.clean_num]
    split
    · rfl
    · exact pyFloat?_none_of_dots _ hd

/-- Witness for `clean_num_total_and_malformed_absent`: the cell `"12.34.5%"`
has a two-dot residual and is dropped. -/
theorem clean_num_total_and_malformed_absent_witness :
    IngestRescue.clean_num (chars "12.34.5%") = none :=
  clean_num_total_and_malformed_absent.2 (chars "12.34.5%") (by decide)

/-- **C8.** For every thousands-separated numeric string with a trailing
percent sign — an arbitrary comma-separated sequence of digit groups, in any
grouping convention, with or without a fractional part — the Value Cleaner
strips every separator and the percent sign and returns the underlying
number, in both variants cited by the claim (`ingest_data.py` and
`ingest_handbooks_5y_and_ar.py`).  In particular `"1,234.50%"` cleans to
`1234.50`, `"1,234,567.89%"` to `1234567.89` and `"1,234%"` to `1234` (see
the witness). -/
theorem clean_num_strips_separators_and_percent
    (g : List ℕ) (gs : List (List ℕ)) (c : List ℕ)
    (hg : ∀ d ∈ g, d < 10) (hgs : ∀ z ∈ gs, ∀ d ∈ z, d < 10)
    (hcd : ∀ d ∈ c, d < 10) (hgne : g ≠ []) :
    (IngestData.clean_num (commaJoin g gs ++ (('.' :: encodeDigits c) ++ ['%']))
        = some (PyVal.num ((natOfDigits (g ++ gs.flatten) : ℚ)
            + (natOfDigits c : ℚ) / 10 ^ c.length)))
    ∧ (IngestHandbooks.clean_num (commaJoin g gs ++ (('.' :: encodeDigits c) ++ ['%']))
        = some (PyVal.num ((natOfDigits (g ++ gs.flatten) : ℚ)
            + (natOfDigits c : ℚ) / 10 ^ c.length)))
    ∧ (IngestData.clean_num (commaJoin g gs ++ ['%'])
        = some (PyVal.num (natOfDigits (g ++ gs.flatten) : ℚ)))
    ∧ (IngestHandbooks.clean_num (commaJoin g gs ++ ['%'])
        = some (PyVal.num (natOfDigits (g ++ gs.flatten) : ℚ))) := by
  have hx : ∀ d ∈ g ++ gs.flatten, d < 10 := by
    intro d hd
    rcases List.mem_append.mp hd with h | h
    · exact hg d h
    · obtain ⟨z, hz, hdz⟩ := List.mem_flatten.mp h
      exact hgs z hz d hdz
  have hxne : g ++ gs.flatten ≠ [] := by
    cases g with
    | nil => exact absurd rfl hgne
    | cons d t => simp
  obtain ⟨d0, t, hxt⟩ : ∃ d0 t, g ++ gs.flatten = d0 :: t := by
    cases h : g ++ gs.flatten with
    | nil => exact absurd h hxne
    | cons d0 t => exact ⟨d0, t, rfl⟩
  have hd0 : (Nat.digitChar d0).isDigit = true :=
    (digitChar_props d0 (hx d0 (by rw [hxt]; simp))).1
  -- the two residual strings
  have hD1cons : encodeDigits (g ++ gs.flatten) ++ '.' :: encodeDigits c
      = Nat.digitChar d0 :: (encodeDigits t ++ '.' :: encodeDigits c) := by
    rw [hxt]
    simp [encodeDigits]
  have hD2cons : encodeDigits (g ++ gs.flatten) = Nat.digitChar d0 :: encodeDigits t := by
    rw [hxt]
    simp [encodeDigits]
  have hhead1 : ∀ (h0 : Char) (t' : LStr), h0.isDigit = false →
      encodeDigits (g ++ gs.flatten) ++ '.' :: encodeDigits c ≠ h0 :: t' := by
    intro h0 t' hh0 he
    rw [hD1cons] at he
    have h1 : Nat.digitChar d0 = h0 := by injection he
    rw [h1, hh0] at hd0
    exact absurd hd0 (by simp)
  have hhead2 : ∀ (h0 : Char) (t' : LStr), h0.isDigit = false →
      encodeDigits (g ++ gs.flatten) ≠ h0 :: t' := by
    intro h0 t' hh0 he
    rw [hD2cons] at he
    have h1 : Nat.digitChar d0 = h0 := by injection he
    rw [h1, hh0] at hd0
    exact absurd hd0 (by simp)
  have hnil1 : encodeDigits (g ++ gs.flatten) ++ '.' :: encodeDigits c ≠ [] := by
    rw [hD1cons]; simp
  have hnil2 : encodeDigits (g ++ gs.flatten) ≠ [] := by
    rw [hD2cons]; simp
  -- character classes of the two raw inputs
  have hv1 : ∀ ch ∈ commaJoin g gs ++ (('.' :: encodeDigits c) ++ ['%']),
      (∃ d, d < 10 ∧ ch = Nat.digitChar d) ∨ ch = ',' ∨ ch = '.' ∨ ch = '%' := by
    intro ch hch
    rcases List.mem_append.mp hch with h | h
    · rcases commaJoin_chars g gs hg hgs ch h with h | h
      · exact Or.inl h
      · exact Or.inr (Or.inl h)
    · rcases List.mem_append.mp h with h | h
      · rcases List.mem_cons.mp h with h | h
        · exact Or.inr (Or.inr (Or.inl h))
        · obtain ⟨d, hd, rfl⟩ := mem_encodeDigits h
          exact Or.inl ⟨d, hcd d hd, rfl⟩
      · rcases List.mem_cons.mp h with h | h
        · exact Or.inr (Or.inr (Or.inr h))
        · simp at h
  have hv2 : ∀ ch ∈ commaJoin g gs ++ ['%'],
      (∃ d, d < 10 ∧ ch = Nat.digitChar d) ∨ ch = ',' ∨ ch = '.' ∨ ch = '%' := by
    intro ch hch
    rcases List.mem_append.mp hch with h | h
    · rcases commaJoin_chars g gs hg hgs ch h with h | h
      · exact Or.inl h
      · exact Or.inr (Or.inl h)
    · rcases List.mem_cons.mp h with h | h
      · exact Or.inr (Or.inr (Or.inr h))
      · simp at h
  -- residual computations
  have hres1 : ((commaJoin g gs ++ (('.' :: encodeDigits c) ++ ['%'])).filter
        (fun ch => !(ch = ','))).filter (fun ch => !(ch = '%'))
      = encodeDigits (g ++ gs.flatten) ++ '.' :: encodeDigits c := by
    apply filters_commaJoin g gs ('.' :: encodeDigits c) hg hgs
    intro ch hch
    rcases List.mem_cons.mp hch with h | h
    · subst h; exact ⟨by decide, by decide⟩
    · have hd := isDigit_of_mem_encodeDigits hcd h
      exact ⟨ne_of_isDigit hd (by decide), ne_of_isDigit hd (by decide)⟩
  have hres2 : ((commaJoin g gs ++ ['%']).filter
        (fun ch => !(ch = ','))).filter (fun ch => !(ch = '%'))
      = encodeDigits (g ++ gs.flatten) := by
    have h := filters_commaJoin g gs [] hg hgs (by simp)
    simpa using h
  -- float parses of the two residuals
  have hf1 : pyFloat? (encodeDigits (g ++ gs.flatten) ++ '.' :: encodeDigits c)
      = some (PyVal.num ((natOfDigits (g ++ gs.flatten) : ℚ)
          + (natOfDigits c : ℚ) / 10 ^ c.length)) :=
    pyFloat?_digit_schema (g ++ gs.flatten) c hx hcd hxne
  have hf2 : pyFloat? (encodeDigits (g ++ gs.flatten))
      = some (PyVal.num (natOfDigits (g ++ gs.flatten) : ℚ)) :=
    pyFloat?_digit_schema_int (g ++ gs.flatten) hx hxne
  refine ⟨?_, ?_, ?_, ?_⟩
  · simp only [IngestData.clean_num, cleaned_eq_filters _ hv1, hres1]
    rw [if_neg ?hcA]
    · exact hf1
    case hcA =>
      simp only [not_or]
      exact ⟨hnil1, hhead1 '-' [] (by decide), hhead1 'n' ['a'] (by decide),
        hhead1 'n' ['/', 'a'] (by decide), hhead1 'n' ['o', 'n', 'e'] (by decide),
        hhead1 'n' ['a', 'n'] (by decide)⟩
  · simp only [IngestHandbooks.clean_num, IngestRescue.clean_num,
      resid_eq_filters _ hv1, hres1]
    rw [if_neg ?hcB]
    · exact hf1
    case hcB =>
      simp only [not_or]
      exact ⟨hnil1, hhead1 '-' [] (by decide), hhead1 '.' [] (by decide),
        hhead1 'n' ['a'] (by decide), hhead1 'n' ['/', 'a'] (by decide)⟩
  · simp only [IngestData.clean_num, cleaned_eq_filters _ hv2, hres2]
    rw [if_neg ?hcC]
    · exact hf2
    case hcC =>
      simp only [not_or]
      exact ⟨hnil2, hhead2 '-' [] (by decide), hhead2 'n' ['a'] (by decide),
        hhead2 'n' ['/', 'a'] (by decide), hhead2 'n' ['o', 'n', 'e'] (by decide),
        hhead2 'n' ['a', 'n'] (by decide)⟩
  · simp only [IngestHandbooks.clean_num, IngestRescue.clean_num,
      resid_eq_filters _ hv2, hres2]
    rw [if_neg ?hcD]
    · exact hf2
    case hcD =>
      simp only [not_or]
      exact ⟨hnil2, hhead2 '-' [] (by decide), hhead2 '.' [] (by decide),
        hhead2 'n' ['a'] (by decide), hhead2 'n' ['/', 'a'] (by decide)⟩

/-- Witness for `clean_num_strips_separators_and_percent`: `"1,234.50%"`
cleans to `1234.50`, the multi-separator `"1,234,567.89%"` to `1234567.89`,
and the integer form `"1,234%"` to `1234`. -/
theorem clean_num_strips_separators_and_percent_witness :
    IngestData.clean_num (chars "1,234.50%") = some (PyVal.num (2469 / 2))
    ∧ IngestHandbooks.clean_num (chars "1,234,567.89%")
        = some (PyVal.num (123456789 / 100))
    ∧ IngestData.clean_num (chars "1,234%") = some (PyVal.num 1234) := by
  have h1 := clean_num_strips_separators_and_percent [1] [[2, 3, 4]] [5, 0]
    (by decide) (by decide) (by decide) (by decide)
  have h2 := clean_num_strips_separators_and_percent [1] [[2, 3, 4], [5, 6, 7]] [8, 9]
    (by decide) (by decide) (by decide) (by decide)
  refine ⟨?_, ?_, ?_⟩
  · have he : chars "1,234.50%"
        = commaJoin [1] [[2, 3, 4]] ++ (('.' :: encodeDigits [5, 0]) ++ ['%']) := by
      decide
    rw [he]
    exact h1.1.trans (by norm_num [natOfDigits, List.flatten])
  · have he : chars "1,234,567.89%"
        = commaJoin [1] [[2, 3, 4], [5, 6, 7]] ++ (('.' :: encodeDigits [8, 9]) ++ ['%']) := by
      decide
    rw [he]
    exact h2.2.1.trans (by norm_num [natOfDigits, List.flatten])
  · have he : chars "1,234%" = commaJoin [1] [[2, 3, 4]] ++ ['%'] := by decide
    rw [he]
    exact h1.2.2.1.trans (by norm_num [natOfDigits, List.flatten])

end Mermaid
